import Mathlib

/-!
Verification of the nyancache binary-cache server against its specification.

The development shallowly embeds the Rust sources:
  * `src/nixutils/mod.rs` — signatures, public keys, hashes, the NarInfo codec,
    the signing fingerprint and signature verification;
  * `src/models.rs`     — the `DbPath` index record and its conversions;
  * `src/main.rs`       — the upload coordinator (`add_incomplete`,
    `complete_upload`) and the fetch/upload routes.

Bytes are `Nat` values below 256, machine integers are `Nat`/`Int` with
explicit wrap-around where the Rust code casts, and fallible code returns
`Option`/`Except`.
-/

namespace Nyan

/-! ### Positional base conversion (shared by the base32/base64/decimal codecs) -/

/-- Big-endian digit expansion of `v` in base `B`, padded/truncated to `k` digits. -/
def toBaseBE (B : Nat) : Nat → Nat → List Nat
  | 0, _ => []
  | k + 1, v => toBaseBE B k (v / B) ++ [v % B]

/-- Value of a big-endian digit list in base `B`. -/
def fromBaseBE (B : Nat) (ds : List Nat) : Nat :=
  ds.foldl (fun a d => B * a + d) 0

theorem length_toBaseBE (B k v : Nat) : (toBaseBE B k v).length = k := by
  induction k generalizing v with
  | zero => rfl
  | succ k ih => simp [toBaseBE, ih]

theorem toBaseBE_digit_lt (B k v : Nat) (hB : 0 < B) :
    ∀ d ∈ toBaseBE B k v, d < B := by
  induction k generalizing v with
  | zero => intro d hd; simp [toBaseBE] at hd
  | succ k ih =>
    intro d hd
    simp only [toBaseBE, List.mem_append, List.mem_singleton] at hd
    rcases hd with hd | hd
    · exact ih _ d hd
    · subst hd; exact Nat.mod_lt _ hB

theorem foldl_base_acc (B : Nat) (l : List Nat) :
    ∀ acc : Nat, l.foldl (fun a d => B * a + d) acc
      = acc * B ^ l.length + fromBaseBE B l := by
  induction l with
  | nil => intro acc; simp [fromBaseBE]
  | cons d t ih =>
    intro acc
    have h1 := ih (B * acc + d)
    have h2 := ih d
    simp only [List.foldl_cons, fromBaseBE, List.length_cons] at *
    rw [h1]
    have hd0 : List.foldl (fun a d => B * a + d) (B * 0 + d) t
        = List.foldl (fun a d => B * a + d) d t := by norm_num
    rw [hd0, h2]
    ring

theorem fromBaseBE_cons (B d : Nat) (t : List Nat) :
    fromBaseBE B (d :: t) = d * B ^ t.length + fromBaseBE B t := by
  have := foldl_base_acc B t d
  simp only [fromBaseBE, List.foldl_cons]
  simpa using this

theorem fromBaseBE_append (B : Nat) (l₁ l₂ : List Nat) :
    fromBaseBE B (l₁ ++ l₂) =
      fromBaseBE B l₁ * B ^ l₂.length + fromBaseBE B l₂ := by
  simp only [fromBaseBE, List.foldl_append]
  exact foldl_base_acc B l₂ _

theorem fromBaseBE_toBaseBE (B k v : Nat) (hv : v < B ^ k) :
    fromBaseBE B (toBaseBE B k v) = v := by
  induction k generalizing v with
  | zero =>
    simp only [pow_zero, Nat.lt_one_iff] at hv
    simp [toBaseBE, fromBaseBE, hv]
  | succ k ih =>
    have hB : 0 < B := by
      by_contra hB
      push_neg at hB
      interval_cases B
      simp at hv
    have hdiv : v / B < B ^ k := by
      rw [Nat.div_lt_iff_lt_mul hB]
      calc v < B ^ (k + 1) := hv
        _ = B ^ k * B := by ring
    simp only [toBaseBE]
    rw [fromBaseBE_append, ih (v / B) hdiv]
    have h5 : fromBaseBE B [v % B] = v % B := by simp [fromBaseBE]
    rw [h5]
    simp only [List.length_singleton, pow_one]
    exact Nat.div_add_mod' v B

theorem toBaseBE_fromBaseBE (B : Nat) (ds : List Nat)
    (hd : ∀ d ∈ ds, d < B) :
    toBaseBE B ds.length (fromBaseBE B ds) = ds := by
  induction ds using List.reverseRecOn with
  | nil => rfl
  | append_singleton l d ih =>
    have hdlt : d < B := hd d (by simp)
    have hB : 0 < B := lt_of_le_of_lt (Nat.zero_le d) hdlt
    have hfold : fromBaseBE B (l ++ [d]) = B * fromBaseBE B l + d := by
      rw [fromBaseBE_append]
      simp [fromBaseBE]
      ring
    have hlen : (l ++ [d]).length = l.length + 1 := by simp
    rw [hlen, hfold]
    simp only [toBaseBE]
    have h1 : (B * fromBaseBE B l + d) / B = fromBaseBE B l := by
      rw [Nat.mul_add_div hB, Nat.div_eq_of_lt hdlt]; omega
    have h2 : (B * fromBaseBE B l + d) % B = d := by
      rw [Nat.mul_add_mod, Nat.mod_eq_of_lt hdlt]
    rw [h1, h2, ih (fun x hx => hd x (by simp [hx]))]

theorem fromBaseBE_lt (B : Nat) (ds : List Nat)
    (hd : ∀ d ∈ ds, d < B) :
    fromBaseBE B ds < B ^ ds.length := by
  induction ds using List.reverseRecOn with
  | nil => simp [fromBaseBE]
  | append_singleton l d ih =>
    have hdlt : d < B := hd d (by simp)
    have hl : fromBaseBE B l < B ^ l.length := ih (fun x hx => hd x (by simp [hx]))
    have hfold : fromBaseBE B (l ++ [d]) = B * fromBaseBE B l + d := by
      rw [fromBaseBE_append]
      simp [fromBaseBE]
      ring
    have hlen : (l ++ [d]).length = l.length + 1 := by simp
    rw [hfold, hlen, pow_succ, Nat.mul_comm (B ^ l.length) B]
    have : B * (fromBaseBE B l + 1) ≤ B * B ^ l.length :=
      Nat.mul_le_mul_left B (Nat.succ_le_of_lt hl)
    rw [Nat.mul_add, Nat.mul_one] at this
    omega

/-- `mapM` over `Option` undoes a `map` when `f` is a left inverse of `g`. -/
theorem mapM_map_of_inverse {α β : Type} {f : α → Option β} {g : β → α}
    (l : List β) (h : ∀ x ∈ l, f (g x) = some x) :
    (l.map g).mapM f = some l := by
  induction l with
  | nil => rfl
  | cons x xs ih =>
    simp only [List.map_cons, List.mapM_cons, h x (by simp),
      ih (fun y hy => h y (by simp [hy])), Option.pure_def, Option.bind_eq_bind,
      Option.some_bind]

/-! ### Nix base-32 codec

`src/nixutils/mod.rs` declares `mod base32;` and calls `base32::encode` /
`base32::decode`, but `base32.rs` itself is not among the provided sources.
The two functions below are therefore modelled from the specification. -/

/-- The fixed 32-symbol alphabet of the Nix base-32 encoding (spec §4.1). -/
def base32Chars : List Char := "0123456789abcdfghijklmnpqrsvwxyz".data

/-- Output length of the base-32 encoding: `ceil(8·n / 5)` (spec §4.1). -/
def base32Len (n : Nat) : Nat := (8 * n + 4) / 5

/-- Index of a character in an alphabet, as used to map a symbol back to its
5- or 6-bit group. -/
def charIndex (c : Char) : List Char → Option Nat
  | [] => none
  | x :: xs => if x = c then some 0 else (charIndex c xs).map (· + 1)

/-- Modelled from the spec: `base32::encode` from the missing `base32.rs`.
Treats the byte sequence as one big-endian unsigned integer and emits
`ceil(8·n/5)` five-bit groups, most-significant group first, through the
fixed alphabet (spec §4.1). -/
def base32Encode (bs : List Nat) : List Char :=
  (toBaseBE 32 (base32Len bs.length) (fromBaseBE 256 bs)).map
    (fun d => base32Chars.getD d ' ')

/-- Modelled from the spec: `base32::decode` from the missing `base32.rs`.
"Decoding reverses this exactly, rejecting characters outside the
alphabet": every character is mapped back through the alphabet and the
result is accepted exactly when re-encoding reproduces the input. -/
def base32Decode (s : List Char) : Option (List Nat) :=
  match s.mapM (fun c => charIndex c base32Chars) with
  | none => none
  | some ds =>
    let bs := toBaseBE 256 (5 * s.length / 8) (fromBaseBE 32 ds)
    if base32Encode bs = s then some bs else none

theorem base32_charIndex_getD (d : Nat) (hd : d < 32) :
    charIndex (base32Chars.getD d ' ') base32Chars = some d := by
  have h : ∀ i : Fin 32, charIndex (base32Chars.getD i.val ' ') base32Chars
      = some i.val := by decide
  exact h ⟨d, hd⟩

theorem length_base32Encode (bs : List Nat) :
    (base32Encode bs).length = base32Len bs.length := by
  simp [base32Encode, length_toBaseBE]

theorem base32Decode_base32Encode (bs : List Nat) (h : ∀ b ∈ bs, b < 256) :
    base32Decode (base32Encode bs) = some bs := by
  have hlen : (base32Encode bs).length = base32Len bs.length :=
    length_base32Encode bs
  have hdig : ∀ d ∈ toBaseBE 32 (base32Len bs.length) (fromBaseBE 256 bs),
      d < 32 := toBaseBE_digit_lt 32 _ _ (by norm_num)
  have hmap : (base32Encode bs).mapM (fun c => charIndex c base32Chars)
      = some (toBaseBE 32 (base32Len bs.length) (fromBaseBE 256 bs)) := by
    unfold base32Encode
    exact mapM_map_of_inverse _
      (fun d hd => base32_charIndex_getD d (hdig d hd))
  have hval : fromBaseBE 256 bs < 32 ^ base32Len bs.length := by
    have h1 : fromBaseBE 256 bs < 256 ^ bs.length :=
      fromBaseBE_lt 256 bs h
    have h2 : (256 : Nat) ^ bs.length = 2 ^ (8 * bs.length) := by
      rw [show (256 : Nat) = 2 ^ 8 by norm_num, ← pow_mul]
    have h3 : (32 : Nat) ^ base32Len bs.length = 2 ^ (5 * base32Len bs.length) := by
      rw [show (32 : Nat) = 2 ^ 5 by norm_num, ← pow_mul]
    have h4 : 8 * bs.length ≤ 5 * base32Len bs.length := by
      unfold base32Len; omega
    calc fromBaseBE 256 bs < 2 ^ (8 * bs.length) := h2 ▸ h1
      _ ≤ 2 ^ (5 * base32Len bs.length) := Nat.pow_le_pow_right (by norm_num) h4
      _ = 32 ^ base32Len bs.length := h3.symm
  have hfrom : fromBaseBE 32 (toBaseBE 32 (base32Len bs.length) (fromBaseBE 256 bs))
      = fromBaseBE 256 bs := fromBaseBE_toBaseBE 32 _ _ hval
  have hn : 5 * (base32Encode bs).length / 8 = bs.length := by
    rw [hlen]; unfold base32Len; omega
  have hto : toBaseBE 256 bs.length (fromBaseBE 256 bs) = bs := by
    have := toBaseBE_fromBaseBE 256 bs h
    simpa using this
  unfold base32Decode
  rw [hmap]
  simp [hn, hfrom, hto]

/-! ### Base-64 codec (model of the `base64` crate used by `Signature`/`PubKey`) -/

/-- The standard base-64 alphabet. -/
def base64Chars : List Char :=
  "ABCDEFGHIJKLMNOPQRSTUVWXYZabcdefghijklmnopqrstuvwxyz0123456789+/".data

/-- Number of 6-bit groups needed for `n` bytes: `ceil(8·n / 6)`. -/
def base64Len (n : Nat) : Nat := (8 * n + 5) / 6

/-- Model of `base64::encode` (standard alphabet, `=`-padded), the encoder
used by the `Display` impls of `Signature` and `PubKey`. -/
def base64Encode (bs : List Nat) : List Char :=
  let L := base64Len bs.length
  (toBaseBE 64 L (fromBaseBE 256 bs * 2 ^ (6 * L - 8 * bs.length))).map
    (fun d => base64Chars.getD d ' ') ++ List.replicate ((4 - L % 4) % 4) '='

/-- Model of `base64::decode`: maps each symbol before the padding back
through the alphabet and accepts exactly when re-encoding reproduces the
input (canonical, padded form); anything else is a decode error. -/
def base64Decode (s : List Char) : Option (List Nat) :=
  match (s.takeWhile (fun c => c ≠ '=')).mapM (fun c => charIndex c base64Chars) with
  | none => none
  | some ds =>
    let n := 6 * ds.length / 8
    let bs := toBaseBE 256 n (fromBaseBE 64 ds / 2 ^ (6 * ds.length - 8 * n))
    if base64Encode bs = s then some bs else none

theorem base64_charIndex_getD (d : Nat) (hd : d < 64) :
    charIndex (base64Chars.getD d ' ') base64Chars = some d := by
  have h : ∀ i : Fin 64, charIndex (base64Chars.getD i.val ' ') base64Chars
      = some i.val := by decide
  exact h ⟨d, hd⟩

theorem base64_getD_ne_pad (d : Nat) (hd : d < 64) :
    base64Chars.getD d ' ' ≠ '=' := by
  have h : ∀ i : Fin 64, base64Chars.getD i.val ' ' ≠ '=' := by decide
  exact h ⟨d, hd⟩

theorem base64Decode_base64Encode (bs : List Nat) (h : ∀ b ∈ bs, b < 256) :
    base64Decode (base64Encode bs) = some bs := by
  have hge : 8 * bs.length ≤ 6 * base64Len bs.length := by
    unfold base64Len; omega
  have hdig : ∀ d ∈ toBaseBE 64 (base64Len bs.length)
      (fromBaseBE 256 bs * 2 ^ (6 * base64Len bs.length - 8 * bs.length)),
      d < 64 := toBaseBE_digit_lt 64 _ _ (by norm_num)
  have htake : (base64Encode bs).takeWhile (fun c => c ≠ '=')
      = (toBaseBE 64 (base64Len bs.length)
          (fromBaseBE 256 bs * 2 ^ (6 * base64Len bs.length - 8 * bs.length))).map
        (fun d => base64Chars.getD d ' ') := by
    unfold base64Encode
    rw [List.takeWhile_append_of_pos]
    · have hrep : List.takeWhile (fun c => decide (c ≠ '='))
          (List.replicate ((4 - base64Len bs.length % 4) % 4) '=') = [] := by
        cases hk : (4 - base64Len bs.length % 4) % 4 with
        | zero => simp
        | succ k => simp [List.replicate_succ, List.takeWhile_cons]
      simp [hrep]
    · intro c hc
      simp only [List.mem_map] at hc
      obtain ⟨d, hd, rfl⟩ := hc
      simpa using base64_getD_ne_pad d (hdig d hd)
  have hmap : ((base64Encode bs).takeWhile (fun c => c ≠ '=')).mapM
      (fun c => charIndex c base64Chars)
      = some (toBaseBE 64 (base64Len bs.length)
          (fromBaseBE 256 bs * 2 ^ (6 * base64Len bs.length - 8 * bs.length))) := by
    rw [htake]
    exact mapM_map_of_inverse _
      (fun d hd => base64_charIndex_getD d (hdig d hd))
  have hL : (toBaseBE 64 (base64Len bs.length)
      (fromBaseBE 256 bs * 2 ^ (6 * base64Len bs.length - 8 * bs.length))).length
      = base64Len bs.length := length_toBaseBE 64 _ _
  have hval : fromBaseBE 256 bs * 2 ^ (6 * base64Len bs.length - 8 * bs.length)
      < 64 ^ base64Len bs.length := by
    have h1 : fromBaseBE 256 bs < 256 ^ bs.length := fromBaseBE_lt 256 bs h
    have h2 : (256 : Nat) ^ bs.length = 2 ^ (8 * bs.length) := by
      rw [show (256 : Nat) = 2 ^ 8 by norm_num, ← pow_mul]
    have h3 : (64 : Nat) ^ base64Len bs.length = 2 ^ (6 * base64Len bs.length) := by
      rw [show (64 : Nat) = 2 ^ 6 by norm_num, ← pow_mul]
    have h5 : 2 ^ (8 * bs.length) * 2 ^ (6 * base64Len bs.length - 8 * bs.length)
        = 2 ^ (6 * base64Len bs.length) := by
      rw [← pow_add]
      congr 1
      omega
    calc fromBaseBE 256 bs * 2 ^ (6 * base64Len bs.length - 8 * bs.length)
        < 2 ^ (8 * bs.length) * 2 ^ (6 * base64Len bs.length - 8 * bs.length) := by
          have hpow : 0 < 2 ^ (6 * base64Len bs.length - 8 * bs.length) :=
            Nat.pos_pow_of_pos _ (by norm_num)
          exact Nat.mul_lt_mul_of_lt_of_le (h2 ▸ h1) (le_refl _) hpow
      _ = 2 ^ (6 * base64Len bs.length) := h5
      _ = 64 ^ base64Len bs.length := h3.symm
  have hfrom : fromBaseBE 64 (toBaseBE 64 (base64Len bs.length)
      (fromBaseBE 256 bs * 2 ^ (6 * base64Len bs.length - 8 * bs.length)))
      = fromBaseBE 256 bs * 2 ^ (6 * base64Len bs.length - 8 * bs.length) :=
    fromBaseBE_toBaseBE 64 _ _ hval
  have hn : 6 * base64Len bs.length / 8 = bs.length := by
    unfold base64Len; omega
  have hdiv : fromBaseBE 256 bs * 2 ^ (6 * base64Len bs.length - 8 * bs.length)
      / 2 ^ (6 * base64Len bs.length - 8 * bs.length) = fromBaseBE 256 bs :=
    Nat.mul_div_cancel _ (Nat.pos_pow_of_pos _ (by norm_num))
  have hto : toBaseBE 256 bs.length (fromBaseBE 256 bs) = bs := by
    have := toBaseBE_fromBaseBE 256 bs h
    simpa using this
  unfold base64Decode
  rw [hmap]
  simp only [hL, hn, hfrom, hdiv, hto]
  simp

/-! ### Decimal codec (Rust `u64` `Display` / `str::parse::<u64>`) -/

/-- Fuel-driven digit count (the fuel only bounds the recursion depth). -/
def decLenAux : Nat → Nat → Nat
  | 0, _ => 1
  | f + 1, n => if n < 10 then 1 else 1 + decLenAux f (n / 10)

/-- Number of decimal digits of `n` (one digit for `0`). -/
def decLen (n : Nat) : Nat := decLenAux n n

theorem decLenAux_congr : ∀ (f₁ f₂ n : Nat), n ≤ f₁ → n ≤ f₂ →
    decLenAux f₁ n = decLenAux f₂ n := by
  intro f₁
  induction f₁ with
  | zero =>
    intro f₂ n h1 _
    have : n = 0 := by omega
    subst this
    cases f₂ with
    | zero => rfl
    | succ f => simp [decLenAux]
  | succ f ih =>
    intro f₂ n h1 h2
    cases f₂ with
    | zero =>
      have : n = 0 := by omega
      subst this
      simp [decLenAux]
    | succ g =>
      by_cases hn : n < 10
      · simp [decLenAux, hn]
      · simp only [decLenAux, if_neg hn]
        have hd : n / 10 < n := Nat.div_lt_self (by omega) (by norm_num)
        rw [ih g (n / 10) (by omega) (by omega)]

theorem decLen_step (n : Nat) :
    decLen n = if n < 10 then 1 else 1 + decLen (n / 10) := by
  unfold decLen
  cases n with
  | zero => simp [decLenAux]
  | succ m =>
    show decLenAux (m + 1) (m + 1) = _
    by_cases hn : m + 1 < 10
    · simp [decLenAux, hn]
    · simp only [decLenAux, if_neg hn]
      have hd : (m + 1) / 10 < m + 1 := Nat.div_lt_self (by omega) (by norm_num)
      rw [decLenAux_congr m ((m + 1) / 10) ((m + 1) / 10) (by omega) (le_refl _)]

theorem lt_pow_decLen (n : Nat) : n < 10 ^ decLen n := by
  induction n using Nat.strong_induction_on with
  | _ n ih =>
    by_cases hn : n < 10
    · rw [decLen_step, if_pos hn]; simpa using hn
    · rw [decLen_step, if_neg hn]
      have hd : n / 10 < n := Nat.div_lt_self (by omega) (by norm_num)
      have := ih (n / 10) hd
      have h9 : n ≤ 10 * (n / 10) + 9 := by omega
      calc n ≤ 10 * (n / 10) + 9 := h9
        _ < 10 * 10 ^ decLen (n / 10) := by omega
        _ = 10 ^ (1 + decLen (n / 10)) := by rw [pow_add, pow_one]

/-- Decimal rendering of a `u64`, as produced by Rust's `Display` for
`nar_size` / `file_size` and inside the fingerprint. -/
def natToChars (n : Nat) : List Char :=
  (toBaseBE 10 (decLen n) n).map (fun d => Char.ofNat (48 + d))

/-- Value of an ASCII digit, if the character is one. -/
def digitVal (c : Char) : Option Nat :=
  if 48 ≤ c.toNat ∧ c.toNat ≤ 57 then some (c.toNat - 48) else none

/-- Model of Rust's `str::parse::<u64>`: an optional leading `+`, then one
or more ASCII digits, rejecting values `≥ 2^64`. -/
def parseU64 (s : List Char) : Option Nat :=
  let s' := if s.head? = some '+' then s.tail else s
  if s'.isEmpty then none
  else match s'.mapM digitVal with
    | none => none
    | some ds => if fromBaseBE 10 ds < 2 ^ 64 then some (fromBaseBE 10 ds) else none

theorem digitVal_ofNat (d : Nat) (hd : d < 10) :
    digitVal (Char.ofNat (48 + d)) = some d := by
  have h : ∀ i : Fin 10, digitVal (Char.ofNat (48 + i.val)) = some i.val := by decide
  exact h ⟨d, hd⟩

theorem ofNat_digit_ne_plus (d : Nat) (hd : d < 10) :
    Char.ofNat (48 + d) ≠ '+' := by
  have h : ∀ i : Fin 10, Char.ofNat (48 + i.val) ≠ '+' := by decide
  exact h ⟨d, hd⟩

theorem decLen_pos (n : Nat) : 0 < decLen n := by
  rw [decLen_step]
  split
  · omega
  · have := Nat.zero_le (decLen (n / 10))
    omega

theorem natToChars_length_pos (n : Nat) : 0 < (natToChars n).length := by
  unfold natToChars
  rw [List.length_map, length_toBaseBE]
  exact decLen_pos n

theorem parseU64_natToChars (n : Nat) (hn : n < 2 ^ 64) :
    parseU64 (natToChars n) = some n := by
  have hdig : ∀ d ∈ toBaseBE 10 (decLen n) n, d < 10 :=
    toBaseBE_digit_lt 10 _ _ (by norm_num)
  have hhead : (natToChars n).head? ≠ some '+' := by
    unfold natToChars
    cases hb : toBaseBE 10 (decLen n) n with
    | nil =>
      have h0 := length_toBaseBE 10 (decLen n) n
      rw [hb] at h0
      have h1 := decLen_pos n
      simp at h0
      omega
    | cons d t =>
      simp only [List.map_cons, List.head?_cons, ne_eq, Option.some.injEq]
      exact ofNat_digit_ne_plus d (hdig d (by rw [hb]; simp))
  have hne : ¬(natToChars n).isEmpty := by
    rw [List.isEmpty_iff_length_eq_zero]
    have := natToChars_length_pos n
    omega
  have hmap : (natToChars n).mapM digitVal = some (toBaseBE 10 (decLen n) n) := by
    unfold natToChars
    exact mapM_map_of_inverse _ (fun d hd => digitVal_ofNat d (hdig d hd))
  have hfrom : fromBaseBE 10 (toBaseBE 10 (decLen n) n) = n :=
    fromBaseBE_toBaseBE 10 _ _ (lt_pow_decLen n)
  unfold parseU64
  rw [if_neg hhead]
  rw [if_neg (by simpa using hne)]
  rw [hmap]
  simp [hfrom]
  omega

/-! ### String helpers mirroring the Rust string operations -/

/-- Rust `str::splitn(2, sep)` when the separator occurs: the part before the
first `sep` and everything after it; `none` when `sep` does not occur. -/
def splitAtChar (sep : Char) : List Char → Option (List Char × List Char)
  | [] => none
  | c :: cs =>
    if c = sep then some ([], cs)
    else (splitAtChar sep cs).map (fun p => (c :: p.1, p.2))

/-- Rust `str::split(sep)`: every segment, empty segments included; the
result is always non-empty. -/
def splitOnChar (sep : Char) : List Char → List (List Char)
  | [] => [[]]
  | c :: cs =>
    match splitOnChar sep cs with
    | [] => [[]]
    | h :: t => if c = sep then [] :: h :: t else (c :: h) :: t

/-- Strip one trailing carriage return, as Rust `str::lines` does. -/
def stripCR (l : List Char) : List Char :=
  match l.getLast? with
  | some c => if c = '\r' then l.dropLast else l
  | none => l

/-- Rust `str::lines`: split on newline, drop a final empty segment, strip a
trailing carriage return from each line. -/
def linesOf (l : List Char) : List (List Char) :=
  let segs := splitOnChar '\n' l
  let segs := if segs.getLast? = some [] then segs.dropLast else segs
  segs.map stripCR

/-- Rust `str::strip_prefix`: the remainder when `pre` is a prefix. -/
def dropPre : List Char → List Char → Option (List Char)
  | [], l => some l
  | _ :: _, [] => none
  | p :: ps, c :: cs => if p = c then dropPre ps cs else none

/-- UTF-8 bytes of a string, as Rust `str::as_bytes`. -/
def utf8Bytes (s : String) : List Nat :=
  s.toUTF8.toList.map (fun b => b.toNat)

/-! ### Error type: `src/error.rs` -/

/-- The error enum of `src/error.rs` (payloads dropped). -/
inductive Error
  | MissingNarInfo
  | Io
  | Database
  | Upload
  | Download
  | UnexpectedEof
  | Base64
  | BadBase32
  | UnknownHashType
  | NoValidSignature
  | BadNarInfo
  | NotFound
deriving DecidableEq, Repr

/-! ### Signatures and public keys: `src/nixutils/mod.rs` lines 10–55 -/

/-- The `Signature` struct: a key name and raw signature bytes. -/
structure Signature where
  key_name : String
  signature : List Nat
deriving DecidableEq, Repr

/-- The `PubKey` struct: a key name and raw key bytes. -/
structure PubKey where
  key_name : String
  pub_key : List Nat
deriving DecidableEq, Repr

/-- The `FromStr` impl for `Signature`: split on the first `:`; without a
colon the second `splitn` part is missing (`UnexpectedEof`); the remainder
is base64-decoded. -/
def Signature.fromStr (s : String) : Except Error Signature :=
  match splitAtChar ':' s.data with
  | none => .error .UnexpectedEof
  | some (name, rest) =>
    match base64Decode rest with
    | none => .error .Base64
    | some bytes => .ok ⟨⟨name⟩, bytes⟩

/-- The `Display` impl for `Signature`: `keyName:base64(bytes)`. -/
def Signature.toStr (sig : Signature) : String :=
  sig.key_name ++ ":" ++ ⟨base64Encode sig.signature⟩

/-- The `FromStr` impl for `PubKey` (same shape as `Signature`). -/
def PubKey.fromStr (s : String) : Except Error PubKey :=
  match splitAtChar ':' s.data with
  | none => .error .UnexpectedEof
  | some (name, rest) =>
    match base64Decode rest with
    | none => .error .Base64
    | some bytes => .ok ⟨⟨name⟩, bytes⟩

/-- The `Display` impl for `PubKey`: `keyName:base64(bytes)`. -/
def PubKey.toStr (k : PubKey) : String :=
  k.key_name ++ ":" ++ ⟨base64Encode k.pub_key⟩

/-! ### Hashes: `src/nixutils/mod.rs` lines 57–96 -/

/-- The `HashType` enum. -/
inductive HashType
  | Md5
  | Sha1
  | Sha256
  | Sha512
deriving DecidableEq, Repr

/-- The strum `AsRefStr` serialization of `HashType`. -/
def HashType.asRef : HashType → String
  | .Md5 => "md5"
  | .Sha1 => "sha1"
  | .Sha256 => "sha256"
  | .Sha512 => "sha512"

/-- The strum `EnumString` parse of `HashType`; unknown tags fail. -/
def HashType.fromStr (s : String) : Option HashType :=
  if s = "md5" then some .Md5
  else if s = "sha1" then some .Sha1
  else if s = "sha256" then some .Sha256
  else if s = "sha512" then some .Sha512
  else none

/-- The `NixHash` struct: an algorithm tag and the raw digest bytes. -/
structure NixHash where
  hash_type : HashType
  hash : List Nat
deriving DecidableEq, Repr

/-- The `FromStr` impl for `NixHash`: parse the algorithm tag from the part
before the first `:` (the whole string when there is no colon), then
base32-decode the remainder. No check relates the decoded digest length to
the algorithm. -/
def NixHash.fromStr (s : String) : Except Error NixHash :=
  let parts := splitAtChar ':' s.data
  let first : List Char := match parts with
    | none => s.data
    | some p => p.1
  match HashType.fromStr ⟨first⟩ with
  | none => .error .UnknownHashType
  | some t =>
    match parts with
    | none => .error .UnexpectedEof
    | some p =>
      match base32Decode p.2 with
      | none => .error .BadBase32
      | some h => .ok ⟨t, h⟩

/-- The `Display` impl for `NixHash`: `algo:base32(digest)`. -/
def NixHash.toStr (h : NixHash) : String :=
  h.hash_type.asRef ++ ":" ++ ⟨base32Encode h.hash⟩

/-! ### Compression: `src/nixutils/mod.rs` lines 98–110 -/

/-- The `Compression` enum; `Plain` serializes as `none`. -/
inductive Compression
  | Xz
  | Bzip2
  | Gzip
  | Zstd
  | Plain
deriving DecidableEq, Repr

/-- The strum `AsRefStr` serialization of `Compression`. -/
def Compression.asRef : Compression → String
  | .Xz => "xz"
  | .Bzip2 => "bzip2"
  | .Gzip => "gzip"
  | .Zstd => "zstd"
  | .Plain => "none"

/-- The strum `EnumString` parse of `Compression`. -/
def Compression.fromStr (s : String) : Option Compression :=
  if s = "xz" then some .Xz
  else if s = "bzip2" then some .Bzip2
  else if s = "gzip" then some .Gzip
  else if s = "zstd" then some .Zstd
  else if s = "none" then some .Plain
  else none

/-! ### The NarInfo record: `src/nixutils/mod.rs` lines 112–270

`BTreeSet<String>` is embedded as a strictly sorted list (its iteration
order), `HashMap<String, Vec<u8>>` as an association list with unique keys
(one fixed iteration order). -/

/-- `BTreeSet::insert` on the sorted-list representation. -/
def insertSorted (x : String) : List String → List String
  | [] => [x]
  | y :: ys =>
    if x < y then x :: y :: ys
    else if x = y then y :: ys
    else y :: insertSorted x ys

/-- `HashMap::insert` on the association-list representation: replaces the
value of an existing key in place, otherwise appends. -/
def insertAssoc (k : String) (v : List Nat) :
    List (String × List Nat) → List (String × List Nat)
  | [] => [(k, v)]
  | (k', v') :: rest =>
    if k' = k then (k, v) :: rest else (k', v') :: insertAssoc k v rest

/-- `HashMap::get` on the association-list representation. -/
def lookupAssoc (k : String) : List (String × List Nat) → Option (List Nat)
  | [] => none
  | (k', v) :: rest => if k' = k then some v else lookupAssoc k rest

/-- The `NarInfo` struct (the spec's `ArtifactMetadata`). -/
structure NarInfo where
  path : String
  nar_hash : NixHash
  nar_size : Nat
  file_hash : Option NixHash
  file_size : Option Nat
  url : Option String
  compression : Option Compression
  deriver : Option String
  ca : Option String
  references : List String
  signatures : List (String × List Nat)
deriving DecidableEq, Repr

/-- Witness type of a successful verification (`SignatureVerified`). -/
inductive SignatureVerified
  | mk
deriving DecidableEq, Repr

/-- `NarInfo::fingerprint`: the canonical signing string
`1;path;narHashText;narSize;commaJoinedReferences` with the references in
their `BTreeSet` (sorted) iteration order. -/
def NarInfo.fingerprint (n : NarInfo) : String :=
  "1;" ++ n.path ++ ";" ++ n.nar_hash.toStr ++ ";" ++ ⟨natToChars n.nar_size⟩
    ++ ";" ++ String.intercalate "," n.references

/-- The loop of `NarInfo::check_signature` over the trusted keys. `ed`
stands for ring's Ed25519 `verify` on (public-key bytes, message bytes,
signature bytes). -/
def checkSigLoop (ed : List Nat → List Nat → List Nat → Bool)
    (sigs : List (String × List Nat)) (fp : List Nat) :
    List PubKey → Except Error SignatureVerified
  | [] => .error .NoValidSignature
  | k :: ks =>
    match lookupAssoc k.key_name sigs with
    | some sig =>
      if ed k.pub_key fp sig then .ok .mk else checkSigLoop ed sigs fp ks
    | none => checkSigLoop ed sigs fp ks

/-- `NarInfo::check_signature`: try each trusted key whose name has an entry
in `signatures`, verifying the UTF-8 bytes of the fingerprint; the first
success wins, otherwise `NoValidSignature`. -/
def NarInfo.check_signature (ed : List Nat → List Nat → List Nat → Bool)
    (n : NarInfo) (trusted_keys : List PubKey) : Except Error SignatureVerified :=
  checkSigLoop ed n.signatures (utf8Bytes n.fingerprint) trusted_keys

/-- The store-root prefix hardcoded in the parser and serializer. -/
def storeRoot : String := "/nix/store/"

/-- The accumulator of the `FromStr` loop for `NarInfo`: one mutable local
per field of the Rust function. -/
structure ParseAcc where
  path : Option String
  nar_hash : Option NixHash
  nar_size : Option Nat
  file_hash : Option NixHash
  file_size : Option Nat
  url : Option String
  compression : Option Compression
  deriver : Option String
  ca : Option String
  references : List String
  signatures : List (String × List Nat)
deriving DecidableEq, Repr

/-- The initial accumulator (every field unset). -/
def ParseAcc.init : ParseAcc :=
  ⟨none, none, none, none, none, none, none, none, none, [], []⟩

/-- Insert each space-separated segment of a `References` value, prefixed
with the store root, into the reference set. -/
def insertRefs (acc : List String) (segs : List (List Char)) : List String :=
  segs.foldl (fun a r => insertSorted (storeRoot ++ ⟨r⟩) a) acc

/-- One iteration of the `FromStr` loop of `NarInfo`: split the line at its
first colon (absence is `BadNarInfo`), require a space right after it, and
dispatch on the key; unknown keys are ignored with a warning. -/
def parseLine (acc : ParseAcc) (line : List Char) : Except Error ParseAcc :=
  match splitAtChar ':' line with
  | none => .error .BadNarInfo
  | some (name, after) =>
    match after with
    | ' ' :: valueChars =>
      let value : String := ⟨valueChars⟩
      if name = "StorePath".data then .ok { acc with path := some value }
      else if name = "NarHash".data then
        (NixHash.fromStr value).map (fun h => { acc with nar_hash := some h })
      else if name = "NarSize".data then
        match parseU64 valueChars with
        | some v => .ok { acc with nar_size := some v }
        | none => .error .BadNarInfo
      else if name = "FileHash".data then
        (NixHash.fromStr value).map (fun h => { acc with file_hash := some h })
      else if name = "FileSize".data then
        match parseU64 valueChars with
        | some v => .ok { acc with file_size := some v }
        | none => .error .BadNarInfo
      else if name = "URL".data then .ok { acc with url := some value }
      else if name = "Compression".data then
        match Compression.fromStr value with
        | some c => .ok { acc with compression := some c }
        | none => .error .BadNarInfo
      else if name = "Deriver".data then .ok { acc with deriver := some value }
      else if name = "References".data then
        .ok { acc with references := insertRefs acc.references (splitOnChar ' ' valueChars) }
      else if name = "Sig".data then
        (Signature.fromStr value).map
          (fun sig => { acc with signatures := insertAssoc sig.key_name sig.signature acc.signatures })
      else if name = "CA".data then .ok { acc with ca := some value }
      else .ok acc
    | _ => .error .BadNarInfo

/-- The `FromStr` impl for `NarInfo`: fold the line parser over the input's
lines, then require `StorePath`, `NarHash` and `NarSize`. -/
def NarInfo.fromStr (s : String) : Except Error NarInfo :=
  match (linesOf s.data).foldlM parseLine ParseAcc.init with
  | .error e => .error e
  | .ok acc =>
    match acc.path, acc.nar_hash, acc.nar_size with
    | some path, some nar_hash, some nar_size =>
      .ok ⟨path, nar_hash, nar_size, acc.file_hash, acc.file_size, acc.url,
        acc.compression, acc.deriver, acc.ca, acc.references, acc.signatures⟩
    | _, _, _ => .error .BadNarInfo

/-- The `References` output line: the header, then one space-prefixed
segment per reference that carries the store root (a reference without the
store root contributes nothing, with a warning). -/
def refsLine (refs : List String) : String :=
  "References:" ++ String.join (refs.map (fun r =>
    match dropPre storeRoot.data r.data with
    | some stripped => " " ++ (⟨stripped⟩ : String)
    | none => ""))

/-- The lines emitted by the `Display` impl for `NarInfo`, in its fixed
field order, optional fields omitted when absent and the `References` line
omitted when the set is empty. -/
def NarInfo.outLines (n : NarInfo) : List String :=
  ["StorePath: " ++ n.path, "NarHash: " ++ n.nar_hash.toStr,
    "NarSize: " ++ (⟨natToChars n.nar_size⟩ : String)]
  ++ (match n.file_hash with | some h => ["FileHash: " ++ h.toStr] | none => [])
  ++ (match n.file_size with | some v => ["FileSize: " ++ (⟨natToChars v⟩ : String)] | none => [])
  ++ (match n.url with | some u => ["URL: " ++ u] | none => [])
  ++ (match n.compression with | some c => ["Compression: " ++ c.asRef] | none => [])
  ++ (match n.deriver with | some d => ["Deriver: " ++ d] | none => [])
  ++ (if n.references.length > 0 then [refsLine n.references] else [])
  ++ n.signatures.map (fun sig => "Sig: " ++ Signature.toStr ⟨sig.1, sig.2⟩)
  ++ (match n.ca with | some c => ["CA: " ++ c] | none => [])

/-- The `Display` impl for `NarInfo`: every line followed by a newline. -/
def NarInfo.toStr (n : NarInfo) : String :=
  String.join (n.outLines.map (· ++ "\n"))

/-! ### The index record: `src/models.rs` -/

/-- Rust `u64 as i32`: truncate to the low 32 bits and reinterpret as a
signed two's-complement value. -/
def u64AsI32 (v : Nat) : Int :=
  if v % 2 ^ 32 < 2 ^ 31 then (v % 2 ^ 32 : Nat)
  else (v % 2 ^ 32 : Nat) - 2 ^ 32

/-- Rust `i32 as u64`: sign-extend to 64 bits. -/
def i32AsU64 (x : Int) : Nat :=
  (x % (2 ^ 64 : Int)).toNat

/-- The `DbPath` row of `src/models.rs` / `src/schema.rs` (`nar_size` and
`file_size` are SQL `Integer`, i.e. `i32`). -/
structure DbPath where
  id : String
  path : String
  registration_time : Option Int
  last_accessed : Option Int
  nar_size : Int
  nar_hash : String
  file_size : Option Int
  file_hash : Option String
  url : Option String
  compression : Option String
  deriver : Option String
  ca : Option String
  sigs : String
  refs : String
deriving DecidableEq, Repr

/-- `impl From<NarInfo> for DbPath`: flatten the metadata into the row,
casting the sizes with `as i32` and joining signatures and references with
single spaces. -/
def DbPath.fromNarInfo (n : NarInfo) : DbPath :=
  { id := ""
    path := n.path
    registration_time := none
    last_accessed := none
    nar_size := u64AsI32 n.nar_size
    nar_hash := n.nar_hash.toStr
    file_size := n.file_size.map (fun v => u64AsI32 v)
    file_hash := n.file_hash.map NixHash.toStr
    url := n.url
    compression := n.compression.map Compression.asRef
    deriver := n.deriver
    ca := n.ca
    sigs := String.intercalate " " (n.signatures.map (fun s => Signature.toStr ⟨s.1, s.2⟩))
    refs := String.intercalate " " n.references }

/-- The `file_hash.map(|x| NixHash::from_str(&x).unwrap())` part of
`DbPath::into` (a failing unwrap is a panic, modelled as `none`). -/
def parseOptHashCol : Option String → Option (Option NixHash)
  | none => some none
  | some s => ((NixHash.fromStr s).toOption).map some

/-- The `compression.map(|x| Compression::from_str(&x).unwrap())` part of
`DbPath::into`. -/
def parseOptCompressionCol : Option String → Option (Option Compression)
  | none => some none
  | some s => (Compression.fromStr s).map some

/-- The `sigs.split(" ").map(|x| Signature::from_str(&x).unwrap()).collect()`
part of `DbPath::into`: parse every space-separated entry (a failing parse
is a panicking unwrap) and collect into the signature map. -/
def parseSigsCol (sigs : String) : Option (List (String × List Nat)) :=
  ((splitOnChar ' ' sigs.data).mapM (fun x =>
    ((Signature.fromStr ⟨x⟩).toOption).map
      (fun sg => (sg.key_name, sg.signature)))).map
    (fun ps => ps.foldl (fun m p => insertAssoc p.1 p.2 m) [])

/-- The `refs.split(" ").map(to_string).collect()` part of `DbPath::into`. -/
def parseRefsCol (refs : String) : List String :=
  (splitOnChar ' ' refs.data).foldl (fun a r => insertSorted ⟨r⟩ a) []

/-- `impl Into<NarInfo> for DbPath`: the reverse conversion. Every failing
`unwrap` in the Rust code is a panic; the model returns `none` there. -/
def DbPath.intoNarInfo (d : DbPath) : Option NarInfo := do
  let nar_hash ← (NixHash.fromStr d.nar_hash).toOption
  let file_hash ← parseOptHashCol d.file_hash
  let compression ← parseOptCompressionCol d.compression
  let signatures ← parseSigsCol d.sigs
  pure ⟨d.path, nar_hash, i32AsU64 d.nar_size, file_hash,
    d.file_size.map i32AsU64, d.url, compression, d.deriver, d.ca,
    parseRefsCol d.refs, signatures⟩

/-! ### The upload coordinator and routes: `src/main.rs`

The server state is embedded as: the `queued_uploads` map, the backend's
staging and final namespaces (`tmp/` and `data/` objects), the index rows
in insertion order, and a log of every `finish_nar` (promote) call. The
backend's own IO outcome and the database insert outcome are passed in as
booleans, since they belong to external collaborators. -/

/-- The `IncompleteUpload` enum of `src/main.rs`. -/
inductive IncompleteUpload
  | Nar
  | NarInfo (info : DbPath)
deriving DecidableEq, Repr

/-- The coordinator/backend/index state. -/
@[ext] structure Sys where
  queued : String → Option IncompleteUpload
  staged : String → Option (List Nat)
  final : String → Option (List Nat)
  rows : List DbPath
  promoteCalls : List String

/-- `Backend::write_nar`: durably store the byte stream at the staging
location for `url`. -/
def write_nar (s : Sys) (url : String) (data : List Nat) : Sys :=
  { s with staged := fun k => if k = url then some data else s.staged k }

/-- `Backend::finish_nar` (promote) for the bucket backend the program
constructs (`main.rs` builds the s3 `Bucket`; the local backend is
commented out): a server-side copy of the staged object to the final key
(`cpOk` is its IO outcome), then a delete of the staging object (`dlOk`).
Copy-then-delete is not atomic: when the copy succeeds and the delete
fails, the call returns an error with the object already visible at the
final key and the staging copy left behind. Copying a missing staged
object fails. The call itself is always logged. -/
def finish_nar (cpOk dlOk : Bool) (s : Sys) (url : String) : Sys × Bool :=
  let s₁ := { s with promoteCalls := s.promoteCalls ++ [url] }
  match s₁.staged url with
  | some b =>
    if cpOk then
      let s₂ := { s₁ with final := fun k => if k = url then some b else s₁.final k }
      if dlOk then
        ({ s₂ with staged := fun k => if k = url then none else s₂.staged k }, true)
      else (s₂, false)
    else (s₁, false)
  | none => (s₁, false)

/-- `complete_upload`: promote first; only on success insert the row into
the index (`insOk` is the insert outcome); either failure propagates. -/
def complete_upload (cpOk dlOk insOk : Bool) (s : Sys) (url : String)
    (nar_info : DbPath) : Sys × Bool :=
  let r := finish_nar cpOk dlOk s url
  if r.2 then
    if insOk then ({ r.1 with rows := r.1.rows ++ [nar_info] }, true)
    else (r.1, false)
  else (r.1, false)

/-- `add_incomplete`: under the `queued_uploads` lock, remove any pending
entry for `url` and match it against the arriving part; an opposite-kind
pair proceeds to `complete_upload`, anything else (re-)stores the part as
pending. -/
def add_incomplete (cpOk dlOk insOk : Bool) (s : Sys) (url : String)
    (part : IncompleteUpload) : Sys × Bool :=
  match part, s.queued url with
  | .Nar, some (.NarInfo ni) =>
    complete_upload cpOk dlOk insOk
      { s with queued := fun k => if k = url then none else s.queued k } url ni
  | .NarInfo ni, some .Nar =>
    complete_upload cpOk dlOk insOk
      { s with queued := fun k => if k = url then none else s.queued k } url ni
  | p, _ =>
    ({ s with queued := fun k => if k = url then some p else s.queued k }, true)

/-- The `put_nar` route: stage the uploaded bytes at `name.nar.xz`, then
hand the bytes part to the coordinator. -/
def put_nar (cpOk dlOk insOk : Bool) (s : Sys) (name : String) (data : List Nat) :
    Sys × Bool :=
  let url := name ++ ".nar.xz"
  add_incomplete cpOk dlOk insOk (write_nar s url data) url .Nar

/-- The `put_narinfo` route: parse the metadata, flatten it to a row with
the request name as id, and hand the metadata part to the coordinator under
the `nar/`-stripped storage key; a missing or unprefixed URL only warns. -/
def put_narinfo (cpOk dlOk insOk : Bool) (s : Sys) (name : String) (input : String) :
    Sys × Bool :=
  match NarInfo.fromStr input with
  | .error _ => (s, false)
  | .ok ni =>
    let d := { DbPath.fromNarInfo ni with id := name }
    match d.url with
    | some full =>
      match dropPre "nar/".data full.data with
      | some stripped => add_incomplete cpOk dlOk insOk s ⟨stripped⟩ (.NarInfo d)
      | none => (s, true)
    | none => (s, true)

/-- `Backend::read_nar`: stream a previously promoted object; a missing
object is an IO error (the backend does not consult the index). -/
def read_nar (s : Sys) (url : String) : Except Error (List Nat) :=
  match s.final url with
  | some b => .ok b
  | none => .error .Io

/-- The `get_narinfo` route: look the id up in the index (first match),
convert the row back and render it. The conversion can panic (`none`). -/
def get_narinfo (s : Sys) (name : String) : Option (Except Error String) :=
  match s.rows.find? (fun r => r.id == name) with
  | none => some (.error .NotFound)
  | some d => (d.intoNarInfo).map (fun n => .ok n.toStr)

/-- The `get_nar` route: require an index row whose url is
`nar/name.nar.xz`, then stream `name.nar.xz` from the backend. -/
def get_nar (s : Sys) (name : String) : Except Error (List Nat) :=
  match s.rows.find? (fun r => r.url == some ("nar/" ++ name ++ ".nar.xz")) with
  | none => .error .NotFound
  | some _ => read_nar s (name ++ ".nar.xz")

/-- Decidable equality on `Except`, for evaluating witnesses. -/
instance exceptDecEq {ε α : Type} [DecidableEq ε] [DecidableEq α] :
    DecidableEq (Except ε α)
  | .ok a, .ok b =>
    if h : a = b then .isTrue (by rw [h]) else .isFalse (by simp [h])
  | .error a, .error b =>
    if h : a = b then .isTrue (by rw [h]) else .isFalse (by simp [h])
  | .ok _, .error _ => .isFalse (by simp)
  | .error _, .ok _ => .isFalse (by simp)

/-- Kind of an upload part: `true` for the bytes half. -/
def IncompleteUpload.isNar : IncompleteUpload → Bool
  | .Nar => true
  | .NarInfo _ => false

/-! ### C1: the coordinator's three-case transition rule -/

/-- C1. On arrival of a part `P` for key `K`, `add_incomplete` follows
exactly the three-case rule: (1) no pending entry — `P` is stored pending,
nothing is promoted or indexed, the call returns Ok; (2) an opposite-kind
pending entry — it is removed and finalization proceeds on the paired
metadata via `complete_upload`; (3) a same-kind pending entry — it is
overwritten by `P` (last-write-wins, not an error) and the key stays
pending with no finalization. -/
theorem add_incomplete_three_cases (cpOk dlOk insOk : Bool) (s : Sys) (url : String)
    (part : IncompleteUpload) :
    (s.queued url = none →
      (add_incomplete cpOk dlOk insOk s url part).1.queued
          = (fun k => if k = url then some part else s.queued k) ∧
        (add_incomplete cpOk dlOk insOk s url part).1.promoteCalls = s.promoteCalls ∧
        (add_incomplete cpOk dlOk insOk s url part).1.rows = s.rows ∧
        (add_incomplete cpOk dlOk insOk s url part).2 = true) ∧
    (∀ ni, s.queued url = some (.NarInfo ni) → part = .Nar →
      add_incomplete cpOk dlOk insOk s url part
        = complete_upload cpOk dlOk insOk
            { s with queued := fun k => if k = url then none else s.queued k }
            url ni) ∧
    (∀ ni, s.queued url = some .Nar → part = .NarInfo ni →
      add_incomplete cpOk dlOk insOk s url part
        = complete_upload cpOk dlOk insOk
            { s with queued := fun k => if k = url then none else s.queued k }
            url ni) ∧
    (∀ p', s.queued url = some p' → p'.isNar = part.isNar →
      (add_incomplete cpOk dlOk insOk s url part).1.queued
          = (fun k => if k = url then some part else s.queued k) ∧
        (add_incomplete cpOk dlOk insOk s url part).1.queued url = some part ∧
        (add_incomplete cpOk dlOk insOk s url part).1.promoteCalls = s.promoteCalls ∧
        (add_incomplete cpOk dlOk insOk s url part).1.rows = s.rows ∧
        (add_incomplete cpOk dlOk insOk s url part).2 = true) := by
  refine ⟨?_, ?_, ?_, ?_⟩
  · intro hq
    cases part <;> simp [add_incomplete, hq]
  · intro ni hq hp
    subst hp
    simp [add_incomplete, hq]
  · intro ni hq hp
    subst hp
    simp [add_incomplete, hq]
  · intro p' hq hk
    cases p' <;> cases part <;> simp [IncompleteUpload.isNar] at hk <;>
      simp [add_incomplete, hq]

/-- Witness for C1: a concrete run through case 1 and case 3. -/
theorem add_incomplete_three_cases_witness :
    let s₀ : Sys := ⟨fun _ => none, fun _ => none, fun _ => none, [], []⟩
    let s₁ := (add_incomplete true true true s₀ "x.nar.xz" .Nar).1
    s₁.queued "x.nar.xz" = some .Nar ∧ s₁.rows = [] ∧
      (add_incomplete true true true s₁ "x.nar.xz" .Nar).1.queued "x.nar.xz"
        = some IncompleteUpload.Nar := by
  intro s₀ s₁
  have h1 := (add_incomplete_three_cases true true true s₀ "x.nar.xz" .Nar).1 rfl
  have hq1 : s₁.queued "x.nar.xz" = some .Nar := by
    show (add_incomplete true true true s₀ "x.nar.xz" .Nar).1.queued "x.nar.xz" = _
    rw [h1.1]
    simp
  have h3 := (add_incomplete_three_cases true true true s₁ "x.nar.xz" .Nar).2.2.2
    IncompleteUpload.Nar hq1 rfl
  refine ⟨hq1, ?_, h3.2.1⟩
  show (add_incomplete true true true s₀ "x.nar.xz" .Nar).1.rows = []
  rw [h1.2.2.1]

/-! ### C3: finalize promotes first, index write is all-or-nothing, but
the copy-then-delete promote is not atomic -/

/-- C3 counterexample input: a system with one staged object and nothing
else. -/
def sC3 : Sys :=
  ⟨fun _ => none, fun k => if k = "x.nar.xz" then some [1] else none,
    fun _ => none, [], []⟩

/-- The row being finalized in the C3 counterexample. -/
def dC3 : DbPath :=
  ⟨"x", "p", none, none, 1, "md5:", none, none, some "nar/x.nar.xz",
    none, none, none, "k:", ""⟩

/-- C3 counterexample: with the bucket backend's copy-then-delete promote,
a finalize whose server-side copy succeeds but whose staging delete fails
returns an error and writes no index row — yet the object is already
visible at the final key (and the staging copy is left behind), so "on
failure the artifact remains neither staged-visible nor indexed" is false
on the code. -/
theorem complete_upload_failure_leaves_visible :
    (complete_upload true false true sC3 "x.nar.xz" dC3).2 = false ∧
      (complete_upload true false true sC3 "x.nar.xz" dC3).1.rows = [] ∧
      (complete_upload true false true sC3 "x.nar.xz" dC3).1.final "x.nar.xz"
        = some [1] ∧
      (complete_upload true false true sC3 "x.nar.xz" dC3).1.staged "x.nar.xz"
        = some [1] := by
  refine ⟨by decide, by decide, by decide, by decide⟩

/-- C3 as amended. `complete_upload` calls the backend promote first and
is all-or-nothing at the index-write boundary: the promote call is always
logged; a changed index implies a fully successful promote; a failed
finalize writes no index row and leaves the artifact unfetchable
(`get_nar` consults the index first and answers `NotFound`); a successful
finalize appends exactly the one row; and a failed copy leaves the final
namespace untouched. But promotion itself is copy-then-delete and not
atomic: when the copy succeeds and only the staging delete fails, finalize
fails with the object already visible at the final key and the staging
copy left behind. -/
theorem complete_upload_index_gated (cpOk dlOk insOk : Bool) (s : Sys)
    (url : String) (ni : DbPath) :
    ((complete_upload cpOk dlOk insOk s url ni).1.promoteCalls
        = s.promoteCalls ++ [url]) ∧
    ((complete_upload cpOk dlOk insOk s url ni).1.rows ≠ s.rows →
      (finish_nar cpOk dlOk s url).2 = true) ∧
    ((complete_upload cpOk dlOk insOk s url ni).2 = false →
      (complete_upload cpOk dlOk insOk s url ni).1.rows = s.rows) ∧
    ((complete_upload cpOk dlOk insOk s url ni).2 = true →
      (complete_upload cpOk dlOk insOk s url ni).1.rows = s.rows ++ [ni]) ∧
    (cpOk = false →
      (complete_upload cpOk dlOk insOk s url ni).1.final = s.final ∧
        (complete_upload cpOk dlOk insOk s url ni).2 = false) ∧
    (∀ b, s.staged url = some b → cpOk = true → dlOk = false →
      (complete_upload cpOk dlOk insOk s url ni).2 = false ∧
        (complete_upload cpOk dlOk insOk s url ni).1.final url = some b ∧
        (complete_upload cpOk dlOk insOk s url ni).1.staged url = some b ∧
        (complete_upload cpOk dlOk insOk s url ni).1.rows = s.rows) ∧
    (∀ name, (complete_upload cpOk dlOk insOk s url ni).2 = false →
      s.rows.find? (fun r => r.url == some ("nar/" ++ name ++ ".nar.xz")) = none →
      get_nar (complete_upload cpOk dlOk insOk s url ni).1 name
        = .error .NotFound) := by
  have hfin : ∀ r : Sys × Bool, r = finish_nar cpOk dlOk s url →
      r.1.rows = s.rows ∧ r.1.promoteCalls = s.promoteCalls ++ [url] := by
    intro r hr
    subst hr
    unfold finish_nar
    cases hst : s.staged url <;> simp [hst] <;> cases cpOk <;> cases dlOk <;> simp
  obtain ⟨hrows, hcalls⟩ := hfin _ rfl
  refine ⟨?_, ?_, ?_, ?_, ?_, ?_, ?_⟩
  · unfold complete_upload
    cases h2 : (finish_nar cpOk dlOk s url).2 <;> cases insOk <;> simp [h2, hcalls]
  · intro hne
    by_contra hff
    simp only [Bool.not_eq_true] at hff
    apply hne
    unfold complete_upload
    simp [hff, hrows]
  · intro hfail
    unfold complete_upload at *
    cases h2 : (finish_nar cpOk dlOk s url).2 <;> cases insOk <;>
      simp [h2, hrows] at hfail ⊢
  · intro hok
    unfold complete_upload at *
    cases h2 : (finish_nar cpOk dlOk s url).2 <;> cases insOk <;>
      simp [h2, hrows] at hok ⊢
  · intro hcp
    subst hcp
    have hf : ∀ r : Sys × Bool, r = finish_nar false dlOk s url →
        r.1.final = s.final ∧ r.2 = false := by
      intro r hr
      subst hr
      unfold finish_nar
      cases hst : s.staged url <;> simp [hst]
    obtain ⟨hf1, hf2⟩ := hf _ rfl
    unfold complete_upload
    simp [hf2, hf1]
  · intro b hst hcp hdl
    subst hcp
    subst hdl
    have hf : finish_nar true false s url
        = ({ s with
              promoteCalls := s.promoteCalls ++ [url]
              final := fun k => if k = url then some b else s.final k }, false) := by
      unfold finish_nar
      simp [hst]
    unfold complete_upload
    rw [hf]
    simp [hst]
  · intro name hfail hnone
    have hr : (complete_upload cpOk dlOk insOk s url ni).1.rows = s.rows := by
      unfold complete_upload at *
      cases h2 : (finish_nar cpOk dlOk s url).2 <;> cases insOk <;>
        simp [h2, hrows] at hfail ⊢
    unfold get_nar
    rw [hr, hnone]

/-- Witness for C3's amended theorem at the copy-ok/delete-failed run: the
object is visible at the final key while the fetch remains `NotFound`. -/
theorem complete_upload_index_gated_witness :
    (complete_upload true false true sC3 "x.nar.xz" dC3).1.final "x.nar.xz"
        = some [1] ∧
      get_nar (complete_upload true false true sC3 "x.nar.xz" dC3).1 "x"
        = .error .NotFound := by
  have h := complete_upload_index_gated true false true sC3 "x.nar.xz" dC3
  have hw := h.2.2.2.2.2.1 [1] (by decide) rfl rfl
  exact ⟨hw.2.1, h.2.2.2.2.2.2 "x" hw.1 (by decide)⟩

/-! ### C5: signature verification -/

theorem checkSigLoop_cons_none (ed : List Nat → List Nat → List Nat → Bool)
    (sigs : List (String × List Nat)) (fp : List Nat) (k : PubKey)
    (ks : List PubKey) (hl : lookupAssoc k.key_name sigs = none) :
    checkSigLoop ed sigs fp (k :: ks) = checkSigLoop ed sigs fp ks := by
  conv_lhs => unfold checkSigLoop
  rw [hl]

theorem checkSigLoop_cons_some (ed : List Nat → List Nat → List Nat → Bool)
    (sigs : List (String × List Nat)) (fp : List Nat) (k : PubKey)
    (ks : List PubKey) (sg : List Nat)
    (hl : lookupAssoc k.key_name sigs = some sg) :
    checkSigLoop ed sigs fp (k :: ks)
      = if ed k.pub_key fp sg then .ok .mk else checkSigLoop ed sigs fp ks := by
  conv_lhs => unfold checkSigLoop
  rw [hl]

theorem checkSigLoop_ok_iff (ed : List Nat → List Nat → List Nat → Bool)
    (sigs : List (String × List Nat)) (fp : List Nat) (ks : List PubKey) :
    checkSigLoop ed sigs fp ks = .ok .mk ↔
      ∃ k ∈ ks, ∃ sg, lookupAssoc k.key_name sigs = some sg ∧
        ed k.pub_key fp sg = true := by
  induction ks with
  | nil => simp [checkSigLoop]
  | cons k ks ih =>
    cases hl : lookupAssoc k.key_name sigs with
    | none =>
      rw [checkSigLoop_cons_none ed sigs fp k ks hl, ih]
      constructor
      · intro ⟨k', hk', sg, hsg, hed⟩
        exact ⟨k', by simp [hk'], sg, hsg, hed⟩
      · intro ⟨k', hk', sg, hsg, hed⟩
        rcases List.mem_cons.mp hk' with rfl | hk'
        · rw [hl] at hsg; cases hsg
        · exact ⟨k', hk', sg, hsg, hed⟩
    | some sg =>
      rw [checkSigLoop_cons_some ed sigs fp k ks sg hl]
      cases hed : ed k.pub_key fp sg with
      | true =>
        rw [if_pos rfl]
        constructor
        · intro _; exact ⟨k, by simp, sg, hl, hed⟩
        · intro _; rfl
      | false =>
        rw [if_neg (by simp), ih]
        constructor
        · intro ⟨k', hk', sg', hsg', hed'⟩
          exact ⟨k', by simp [hk'], sg', hsg', hed'⟩
        · intro ⟨k', hk', sg', hsg', hed'⟩
          rcases List.mem_cons.mp hk' with rfl | hk'
          · rw [hl] at hsg'
            cases hsg'
            rw [hed] at hed'
            cases hed'
          · exact ⟨k', hk', sg', hsg', hed'⟩

theorem checkSigLoop_cases (ed : List Nat → List Nat → List Nat → Bool)
    (sigs : List (String × List Nat)) (fp : List Nat) (ks : List PubKey) :
    checkSigLoop ed sigs fp ks = .ok .mk ∨
      checkSigLoop ed sigs fp ks = .error .NoValidSignature := by
  induction ks with
  | nil => right; rfl
  | cons k ks ih =>
    cases hl : lookupAssoc k.key_name sigs with
    | none => rw [checkSigLoop_cons_none ed sigs fp k ks hl]; exact ih
    | some sg =>
      rw [checkSigLoop_cons_some ed sigs fp k ks sg hl]
      cases hed : ed k.pub_key fp sg with
      | true => left; rw [if_pos rfl]
      | false => rw [if_neg (by simp)]; exact ih

/-- C5. `check_signature` returns `Verified` if and only if some trusted
key's name has an entry in the metadata's signature map and that key's
bytes Ed25519-verify the stored signature against the UTF-8 bytes of the
fingerprint (`ed` stands for ring's Ed25519 verification); when no trusted
key matches, it returns the `NoValidSignature` failure. -/
theorem check_signature_iff (ed : List Nat → List Nat → List Nat → Bool)
    (n : NarInfo) (keys : List PubKey) :
    (n.check_signature ed keys = .ok .mk ↔
      ∃ k ∈ keys, ∃ sg, lookupAssoc k.key_name n.signatures = some sg ∧
        ed k.pub_key (utf8Bytes n.fingerprint) sg = true) ∧
    (¬(∃ k ∈ keys, ∃ sg, lookupAssoc k.key_name n.signatures = some sg ∧
        ed k.pub_key (utf8Bytes n.fingerprint) sg = true) →
      n.check_signature ed keys = .error .NoValidSignature) := by
  constructor
  · exact checkSigLoop_ok_iff ed n.signatures (utf8Bytes n.fingerprint) keys
  · intro hno
    rcases checkSigLoop_cases ed n.signatures (utf8Bytes n.fingerprint) keys with h | h
    · exact absurd ((checkSigLoop_ok_iff ed n.signatures
        (utf8Bytes n.fingerprint) keys).mp h) hno
    · exact h

/-- Witness for C5: with one trusted key whose name is present and an
oracle accepting it, verification succeeds; with no trusted keys it fails. -/
theorem check_signature_iff_witness :
    let n : NarInfo := ⟨"/nix/store/p", ⟨.Md5, []⟩, 0, none, none, none, none,
      none, none, [], [("cache-1", [1, 2])]⟩
    let k : PubKey := ⟨"cache-1", [9]⟩
    let yes : List Nat → List Nat → List Nat → Bool := fun _ _ _ => true
    n.check_signature yes [k] = .ok .mk ∧
      n.check_signature yes [] = .error .NoValidSignature := by
  intro n k yes
  constructor
  · exact (check_signature_iff yes n [k]).1.mpr
      ⟨k, by simp, [1, 2], by decide, rfl⟩
  · exact (check_signature_iff yes n []).2 (by simp)

/-! ### C8: Signature / PubKey parsing -/

/-- C8 counterexample: the input `:` has an empty key name yet parses
successfully (to the empty name and empty byte string) for both
`Signature` and `PubKey`, so an empty key name is not rejected. -/
theorem signature_empty_name_parses :
    Signature.fromStr ":" = .ok ⟨"", []⟩ ∧ PubKey.fromStr ":" = .ok ⟨"", []⟩ := by
  constructor <;> decide

/-- C8 as amended: `Signature::from_str` and `PubKey::from_str` fail with a
parse error exactly when the input has no colon (`UnexpectedEof`) or the
part right of the first colon is malformed base64 (`Base64`); on success
the key name is the — possibly empty — text left of the first colon and
the bytes are the base64 decoding of the remainder. -/
theorem signature_pubkey_fromStr_spec (s : String) :
    (splitAtChar ':' s.data = none →
      Signature.fromStr s = .error .UnexpectedEof ∧
        PubKey.fromStr s = .error .UnexpectedEof) ∧
    (∀ pre rest, splitAtChar ':' s.data = some (pre, rest) →
      (base64Decode rest = none →
        Signature.fromStr s = .error .Base64 ∧
          PubKey.fromStr s = .error .Base64) ∧
      (∀ bytes, base64Decode rest = some bytes →
        Signature.fromStr s = .ok ⟨⟨pre⟩, bytes⟩ ∧
          PubKey.fromStr s = .ok ⟨⟨pre⟩, bytes⟩)) := by
  constructor
  · intro hsplit
    unfold Signature.fromStr PubKey.fromStr
    rw [hsplit]
    exact ⟨rfl, rfl⟩
  · intro pre rest hsplit
    constructor
    · intro hdec
      unfold Signature.fromStr PubKey.fromStr
      rw [hsplit]
      simp only [hdec]
      exact ⟨trivial, trivial⟩
    · intro bytes hdec
      unfold Signature.fromStr PubKey.fromStr
      rw [hsplit]
      simp only [hdec]
      exact ⟨trivial, trivial⟩

/-- Witness for C8's amended theorem: a run through all three arms at
concrete inputs. -/
theorem signature_pubkey_fromStr_spec_witness :
    Signature.fromStr "nocolon" = .error .UnexpectedEof ∧
      Signature.fromStr "k:!!" = .error .Base64 ∧
      Signature.fromStr "k:BwgJ" = .ok ⟨"k", [7, 8, 9]⟩ := by
  refine ⟨?_, ?_, ?_⟩
  · exact ((signature_pubkey_fromStr_spec "nocolon").1 (by decide)).1
  · exact (((signature_pubkey_fromStr_spec "k:!!").2 "k".data "!!".data
      (by decide)).1 (by decide)).1
  · exact (((signature_pubkey_fromStr_spec "k:BwgJ").2 "k".data "BwgJ".data
      (by decide)).2 [7, 8, 9] (by decide)).1

/-! ### C9: the `as i32` cast in the index record -/

theorem i32AsU64_u64AsI32 (v : Nat) :
    i32AsU64 (u64AsI32 v)
      = if v % 2 ^ 32 < 2 ^ 31 then v % 2 ^ 32
        else v % 2 ^ 32 + (2 ^ 64 - 2 ^ 32) := by
  unfold u64AsI32 i32AsU64
  by_cases h : v % 2 ^ 32 < 2 ^ 31
  · rw [if_pos h, if_pos h]
    omega
  · rw [if_neg h, if_neg h]
    omega

/-- C9 counterexample: metadata with `nar_size = 2^64 − 1`, which is far
above `2^31`, yet survives the index round trip unchanged (the `as i32`
truncation gives `-1`, and `as u64` sign-extends it back). -/
def nC9 : NarInfo :=
  ⟨"p", ⟨.Md5, []⟩, 2 ^ 64 - 1, none, none, none, none, none, none, [],
    [("k", [])]⟩

/-- The value `DbPath::into` produces back from `nC9`'s row. -/
def mC9 : NarInfo :=
  ⟨"p", ⟨.Md5, []⟩, 2 ^ 64 - 1, none, none, none, none, none, none, [""],
    [("k", [])]⟩

/-- C9 counterexample: the claim says every `nar_size ≥ 2^31` changes in
the round trip, but `2^64 − 1` comes back identical. -/
theorem dbpath_roundtrip_counterexample :
    (DbPath.fromNarInfo nC9).intoNarInfo = some mC9 ∧
      2 ^ 31 ≤ nC9.nar_size ∧ mC9.nar_size = nC9.nar_size := by
  refine ⟨by decide, by decide, by decide⟩

/-- C9 as amended: for metadata with `nar_size < 2^64`, the index round
trip sends `nar_size` through `as i32` then `as u64`, and the recovered
value equals the original if and only if `nar_size < 2^31` or
`nar_size ≥ 2^64 − 2^31`; likewise for `file_size`. -/
theorem dbpath_roundtrip_size (n m : NarInfo)
    (hv : n.nar_size < 2 ^ 64)
    (hconv : (DbPath.fromNarInfo n).intoNarInfo = some m) :
    m.nar_size = i32AsU64 (u64AsI32 n.nar_size) ∧
    (m.nar_size = n.nar_size ↔
      (n.nar_size < 2 ^ 31 ∨ 2 ^ 64 - 2 ^ 31 ≤ n.nar_size)) ∧
    (∀ v, n.file_size = some v → v < 2 ^ 64 →
      m.file_size = some (i32AsU64 (u64AsI32 v)) ∧
        (m.file_size = some v ↔ (v < 2 ^ 31 ∨ 2 ^ 64 - 2 ^ 31 ≤ v))) := by
  unfold DbPath.intoNarInfo at hconv
  simp only [bind, Option.bind_eq_some, Option.pure_def, Option.some.injEq] at hconv
  obtain ⟨nh, hnh, fh, hfh, cp, hcp, sp, hsp, hm⟩ := hconv
  have hnar : m.nar_size = i32AsU64 (DbPath.fromNarInfo n).nar_size := by
    rw [← hm]
  have hfile : m.file_size = ((DbPath.fromNarInfo n).file_size).map i32AsU64 := by
    rw [← hm]
  have hdnar : (DbPath.fromNarInfo n).nar_size = u64AsI32 n.nar_size := rfl
  have hdfile : (DbPath.fromNarInfo n).file_size
      = n.file_size.map (fun v => u64AsI32 v) := rfl
  refine ⟨by rw [hnar, hdnar], ?_, ?_⟩
  · rw [hnar, hdnar, i32AsU64_u64AsI32]
    by_cases h : n.nar_size % 2 ^ 32 < 2 ^ 31
    · rw [if_pos h]
      omega
    · rw [if_neg h]
      omega
  · intro v hfv hvlt
    have : m.file_size = some (i32AsU64 (u64AsI32 v)) := by
      rw [hfile, hdfile, hfv]
      rfl
    refine ⟨this, ?_⟩
    rw [this]
    rw [i32AsU64_u64AsI32]
    by_cases h : v % 2 ^ 32 < 2 ^ 31
    · rw [if_pos h]
      constructor
      · intro he
        have := Option.some.inj he
        omega
      · intro hd
        have : v % 2 ^ 32 = v := by omega
        rw [this]
    · rw [if_neg h]
      constructor
      · intro he
        have := Option.some.inj he
        omega
      · intro hd
        have : v % 2 ^ 32 + (2 ^ 64 - 2 ^ 32) = v := by omega
        rw [this]

/-- Witness for C9's amended theorem at the counterexample instance. -/
theorem dbpath_roundtrip_size_witness :
    mC9.nar_size = i32AsU64 (u64AsI32 nC9.nar_size) ∧
      (mC9.nar_size = nC9.nar_size ↔
        (nC9.nar_size < 2 ^ 31 ∨ 2 ^ 64 - 2 ^ 31 ≤ nC9.nar_size)) := by
  have h := dbpath_roundtrip_size nC9 mC9 (by decide) (by decide)
  exact ⟨h.1, h.2.1⟩

/-! ### C10: the empty-signature row panics on readback -/

/-- C10. An empty signature map serializes to an empty `sigs` column; the
reverse conversion of any row with an empty `sigs` column panics (returns
`none`); and `get_narinfo` for an id whose first matching row has an empty
`sigs` column therefore never returns. -/
theorem empty_sigs_roundtrip_panics :
    (∀ n : NarInfo, n.signatures = [] → (DbPath.fromNarInfo n).sigs = "") ∧
    (∀ d : DbPath, d.sigs = "" → d.intoNarInfo = none) ∧
    (∀ (s : Sys) (name : String) (d : DbPath),
      s.rows.find? (fun r => r.id == name) = some d → d.sigs = "" →
      get_narinfo s name = none) := by
  have hmain : ∀ d : DbPath, d.sigs = "" → d.intoNarInfo = none := by
    intro d hsigs
    by_contra hne
    obtain ⟨m, hm⟩ := Option.ne_none_iff_exists'.mp hne
    unfold DbPath.intoNarInfo at hm
    rw [hsigs] at hm
    simp only [bind, Option.bind_eq_some, Option.pure_def, Option.some.injEq] at hm
    obtain ⟨nh, hnh, fh, hfh, cp, hcp, sp, hsp, hm⟩ := hm
    have : parseSigsCol "" = none := by decide
    rw [this] at hsp
    cases hsp
  refine ⟨?_, hmain, ?_⟩
  · intro n hsigs
    unfold DbPath.fromNarInfo
    rw [hsigs]
    rfl
  · intro s name d hfind hsigs
    unfold get_narinfo
    rw [hfind]
    show (d.intoNarInfo).map (fun n => Except.ok n.toStr) = none
    rw [hmain d hsigs]
    rfl

/-- Witness for C10: a concrete system holding one empty-`sigs` row. -/
theorem empty_sigs_roundtrip_panics_witness :
    let n0 : NarInfo := ⟨"p", ⟨.Md5, []⟩, 1, none, none, none, none, none,
      none, [], []⟩
    let d0 : DbPath := { DbPath.fromNarInfo n0 with id := "x" }
    let s0 : Sys := ⟨fun _ => none, fun _ => none, fun _ => none, [d0], []⟩
    (DbPath.fromNarInfo n0).sigs = "" ∧ d0.intoNarInfo = none ∧
      get_narinfo s0 "x" = none := by
  intro n0 d0 s0
  have h := empty_sigs_roundtrip_panics
  refine ⟨h.1 n0 rfl, h.2.1 d0 rfl, h.2.2 s0 "x" d0 (by decide) rfl⟩

/-! ### C7: no per-algorithm digest-length check when parsing hashes -/

/-- Expected digest length in bytes of each hash algorithm (from the spec;
the parser in the source never consults any such table). -/
def HashType.digestLen : HashType → Nat
  | .Md5 => 16
  | .Sha1 => 20
  | .Sha256 => 32
  | .Sha512 => 64

theorem splitAtChar_append (sep : Char) (l₁ l₂ : List Char) (h : sep ∉ l₁) :
    splitAtChar sep (l₁ ++ sep :: l₂) = some (l₁, l₂) := by
  induction l₁ with
  | nil => simp [splitAtChar]
  | cons c cs ih =>
    simp only [List.cons_append, splitAtChar]
    rw [if_neg (fun hc => h (by simp [hc]))]
    simp only [List.append_eq]
    rw [ih (fun hm => h (by simp [hm]))]
    rfl

theorem hashType_fromStr_asRef (t : HashType) :
    HashType.fromStr t.asRef = some t := by
  cases t <;> decide

/-- C7 counterexample: `sha256:` is a recognized algorithm tag with a
decoded digest of length 0 ≠ 32, yet it parses successfully instead of
failing. -/
theorem nixhash_wrong_length_parses :
    NixHash.fromStr "sha256:" = .ok ⟨.Sha256, []⟩ ∧
      (0 : Nat) ≠ HashType.digestLen .Sha256 := by
  refine ⟨by decide, by decide⟩

/-- Parsing the textual form of any hash succeeds and returns the original
bytes, whatever their length (shared by the C6 and C7 theorems). -/
theorem nixhash_parse_encode (t : HashType) (bs : List Nat)
    (h : ∀ b ∈ bs, b < 256) :
    NixHash.fromStr (t.asRef ++ ":" ++ (⟨base32Encode bs⟩ : String)) = .ok ⟨t, bs⟩ := by
  have hdata : (t.asRef ++ ":" ++ (⟨base32Encode bs⟩ : String)).data
      = t.asRef.data ++ ':' :: base32Encode bs := by
    simp [String.data_append]
  have hnotin : ':' ∉ t.asRef.data := by
    cases t <;> decide
  have hsp : splitAtChar ':' (t.asRef ++ ":" ++ (⟨base32Encode bs⟩ : String)).data
      = some (t.asRef.data, base32Encode bs) := by
    rw [hdata]
    exact splitAtChar_append ':' _ _ hnotin
  unfold NixHash.fromStr
  rw [hsp]
  simp only
  have hmk : (⟨t.asRef.data⟩ : String) = t.asRef := rfl
  rw [hmk, hashType_fromStr_asRef, base32Decode_base32Encode bs h]

/-- C7 as amended: hash parsing rejects characters outside the base-32
alphabet and non-canonical encodings, but never checks the decoded digest
length against the declared algorithm: every recognized tag with any
canonically encoded payload of any byte length parses successfully. -/
theorem nixhash_fromStr_no_length_check (t : HashType) (bs : List Nat)
    (h : ∀ b ∈ bs, b < 256) :
    NixHash.fromStr (t.asRef ++ ":" ++ (⟨base32Encode bs⟩ : String)) = .ok ⟨t, bs⟩ :=
  nixhash_parse_encode t bs h

/-- Witness for C7's amended theorem: a one-byte sha512 "digest". -/
theorem nixhash_fromStr_no_length_check_witness :
    NixHash.fromStr (HashType.Sha512.asRef ++ ":"
        ++ (⟨base32Encode [255]⟩ : String))
      = .ok ⟨.Sha512, [255]⟩ ∧ (1 : Nat) ≠ HashType.digestLen .Sha512 := by
  refine ⟨nixhash_fromStr_no_length_check .Sha512 [255] (by decide), by decide⟩

/-! ### C4: the fingerprint string and its determinism -/

/-- The reference set built by inserting elements in arrival order — how
both the parser and the row conversion construct `references`. -/
def mkRefsSet (l : List String) : List String :=
  l.foldl (fun a r => insertSorted r a) []

theorem mem_insertSorted (x y : String) (l : List String) :
    y ∈ insertSorted x l ↔ y = x ∨ y ∈ l := by
  induction l with
  | nil => simp [insertSorted]
  | cons z zs ih =>
    unfold insertSorted
    by_cases h1 : x < z
    · rw [if_pos h1]
      simp
    · rw [if_neg h1]
      by_cases h2 : x = z
      · rw [if_pos h2]
        subst h2
        simp
      · rw [if_neg h2]
        simp [ih]
        tauto

theorem pairwise_insertSorted (x : String) (l : List String)
    (hl : l.Pairwise (· < ·)) : (insertSorted x l).Pairwise (· < ·) := by
  induction l with
  | nil => simp [insertSorted]
  | cons z zs ih =>
    rw [List.pairwise_cons] at hl
    obtain ⟨hz, hzs⟩ := hl
    unfold insertSorted
    by_cases h1 : x < z
    · rw [if_pos h1]
      rw [List.pairwise_cons]
      refine ⟨?_, by rw [List.pairwise_cons]; exact ⟨hz, hzs⟩⟩
      intro w hw
      rcases List.mem_cons.mp hw with rfl | hw
      · exact h1
      · exact lt_trans h1 (hz w hw)
    · rw [if_neg h1]
      by_cases h2 : x = z
      · rw [if_pos h2]
        rw [List.pairwise_cons]
        exact ⟨hz, hzs⟩
      · rw [if_neg h2]
        have hzx : z < x := by
          rcases lt_trichotomy x z with h | h | h
          · exact absurd h h1
          · exact absurd h h2
          · exact h
        rw [List.pairwise_cons]
        refine ⟨?_, ih hzs⟩
        intro w hw
        rcases (mem_insertSorted x w zs).mp hw with rfl | hw
        · exact hzx
        · exact hz w hw

theorem eq_of_pairwise_of_mem_iff :
    ∀ (l₁ l₂ : List String), l₁.Pairwise (· < ·) → l₂.Pairwise (· < ·) →
      (∀ x, x ∈ l₁ ↔ x ∈ l₂) → l₁ = l₂
  | [], [], _, _, _ => rfl
  | [], b :: t₂, _, _, hm => absurd ((hm b).mpr (by simp)) (by simp)
  | a :: t₁, [], _, _, hm => absurd ((hm a).mp (by simp)) (by simp)
  | a :: t₁, b :: t₂, h₁, h₂, hm => by
    rw [List.pairwise_cons] at h₁ h₂
    obtain ⟨ha, ht₁⟩ := h₁
    obtain ⟨hb, ht₂⟩ := h₂
    have hab : a = b := by
      rcases List.mem_cons.mp ((hm a).mp (by simp)) with h | h
      · exact h
      · rcases List.mem_cons.mp ((hm b).mpr (by simp)) with h' | h'
        · exact h'.symm
        · exact absurd (hb a h) (not_lt_of_gt (ha b h'))
    subst hab
    have htm : ∀ x, x ∈ t₁ ↔ x ∈ t₂ := by
      intro x
      constructor
      · intro hx
        rcases List.mem_cons.mp ((hm x).mp (by simp [hx])) with h | h
        · exact absurd (h ▸ ha x hx) (lt_irrefl x)
        · exact h
      · intro hx
        rcases List.mem_cons.mp ((hm x).mpr (by simp [hx])) with h | h
        · exact absurd (h ▸ hb x hx) (lt_irrefl x)
        · exact h
    rw [eq_of_pairwise_of_mem_iff t₁ t₂ ht₁ ht₂ htm]

theorem mkRefsSet_pairwise_aux (l : List String) :
    ∀ acc : List String, acc.Pairwise (· < ·) →
      (l.foldl (fun a r => insertSorted r a) acc).Pairwise (· < ·) := by
  induction l with
  | nil => intro acc h; exact h
  | cons r rs ih =>
    intro acc h
    exact ih (insertSorted r acc) (pairwise_insertSorted r acc h)

theorem mkRefsSet_mem_aux (l : List String) :
    ∀ (acc : List String) (x : String),
      x ∈ l.foldl (fun a r => insertSorted r a) acc ↔ x ∈ acc ∨ x ∈ l := by
  induction l with
  | nil => intro acc x; simp
  | cons r rs ih =>
    intro acc x
    rw [List.foldl_cons, ih (insertSorted r acc) x, mem_insertSorted]
    simp
    tauto

theorem mkRefsSet_eq_of_mem_iff (l₁ l₂ : List String)
    (hm : ∀ x, x ∈ l₁ ↔ x ∈ l₂) : mkRefsSet l₁ = mkRefsSet l₂ := by
  apply eq_of_pairwise_of_mem_iff
  · exact mkRefsSet_pairwise_aux l₁ [] List.Pairwise.nil
  · exact mkRefsSet_pairwise_aux l₂ [] List.Pairwise.nil
  · intro x
    rw [mkRefsSet, mkRefsSet, mkRefsSet_mem_aux, mkRefsSet_mem_aux]
    simp [hm x]

/-- C4. The fingerprint is exactly
`1;storePath;narHashText;narSize;comma-joined references`, the reference
set iterates in strictly sorted order whatever the insertion order was, and
two metadata values with the same path, hash, size and reference membership
(any insertion order) have byte-identical fingerprints. -/
theorem fingerprint_spec :
    (∀ n : NarInfo, n.fingerprint
      = "1;" ++ n.path ++ ";" ++ n.nar_hash.toStr ++ ";"
        ++ (⟨natToChars n.nar_size⟩ : String) ++ ";"
        ++ String.intercalate "," n.references) ∧
    (∀ l : List String, (mkRefsSet l).Pairwise (· < ·) ∧
      (∀ x, x ∈ mkRefsSet l ↔ x ∈ l)) ∧
    (∀ (path : String) (nh : NixHash) (sz : Nat) (fh : Option NixHash)
        (fs : Option Nat) (u c dv ca : _) (sigs : List (String × List Nat))
        (l₁ l₂ : List String), (∀ x, x ∈ l₁ ↔ x ∈ l₂) →
      NarInfo.fingerprint ⟨path, nh, sz, fh, fs, u, c, dv, ca, mkRefsSet l₁, sigs⟩
        = NarInfo.fingerprint ⟨path, nh, sz, fh, fs, u, c, dv, ca, mkRefsSet l₂, sigs⟩) := by
  refine ⟨fun n => rfl, ?_, ?_⟩
  · intro l
    refine ⟨mkRefsSet_pairwise_aux l [] List.Pairwise.nil, ?_⟩
    intro x
    rw [mkRefsSet, mkRefsSet_mem_aux]
    simp
  · intro path nh sz fh fs u c dv ca sigs l₁ l₂ hm
    rw [mkRefsSet_eq_of_mem_iff l₁ l₂ hm]

/-- Witness for C4: two insertion orders of the same reference set give the
same fingerprint. -/
theorem fingerprint_spec_witness :
    NarInfo.fingerprint ⟨"/nix/store/p", ⟨.Md5, []⟩, 5, none, none, none,
        none, none, none, mkRefsSet ["/nix/store/b", "/nix/store/a"], []⟩
      = NarInfo.fingerprint ⟨"/nix/store/p", ⟨.Md5, []⟩, 5, none, none, none,
        none, none, none,
        mkRefsSet ["/nix/store/a", "/nix/store/b", "/nix/store/a"], []⟩ := by
  apply fingerprint_spec.2.2
  intro x
  simp
  tauto

/-! ### C2: pairing sequences finalize exactly once, in either order -/

theorem deliver_bytes_then_info (s₀ : Sys) (url : String) (d : List Nat)
    (ni : DbPath) (hq : s₀.queued url = none) :
    (add_incomplete true true true
        (add_incomplete true true true (write_nar s₀ url d) url .Nar).1
        url (.NarInfo ni)).1
      = ⟨fun k => if k = url then none else s₀.queued k,
          fun k => if k = url then none else s₀.staged k,
          fun k => if k = url then some d else s₀.final k,
          s₀.rows ++ [ni], s₀.promoteCalls ++ [url]⟩ ∧
      (add_incomplete true true true
        (add_incomplete true true true (write_nar s₀ url d) url .Nar).1
        url (.NarInfo ni)).2 = true := by
  have hq' : (write_nar s₀ url d).queued url = none := hq
  have h1 : (add_incomplete true true true (write_nar s₀ url d) url .Nar)
      = ({ write_nar s₀ url d with
            queued := fun k => if k = url then some .Nar
              else (write_nar s₀ url d).queued k }, true) := by
    simp [add_incomplete, hq']
  rw [h1]
  have hq2 : ((({ write_nar s₀ url d with
      queued := fun k => if k = url then some IncompleteUpload.Nar
        else (write_nar s₀ url d).queued k }) : Sys)).queued url
      = some .Nar := by simp
  simp only [add_incomplete, hq2]
  simp only [complete_upload, finish_nar, write_nar]
  refine ⟨?_, by simp⟩
  refine Sys.ext ?_ ?_ ?_ ?_ ?_
  · funext k
    by_cases hk : k = url <;> simp [hk]
  · funext k
    by_cases hk : k = url <;> simp [hk]
  · funext k
    by_cases hk : k = url <;> simp [hk]
  · simp
  · simp

theorem deliver_info_then_bytes (s₀ : Sys) (url : String) (d : List Nat)
    (ni : DbPath) (hq : s₀.queued url = none) :
    (add_incomplete true true true
        (write_nar (add_incomplete true true true s₀ url (.NarInfo ni)).1 url d)
        url .Nar).1
      = ⟨fun k => if k = url then none else s₀.queued k,
          fun k => if k = url then none else s₀.staged k,
          fun k => if k = url then some d else s₀.final k,
          s₀.rows ++ [ni], s₀.promoteCalls ++ [url]⟩ ∧
      (add_incomplete true true true
        (write_nar (add_incomplete true true true s₀ url (.NarInfo ni)).1 url d)
        url .Nar).2 = true := by
  have h1 : (add_incomplete true true true s₀ url (.NarInfo ni))
      = ({ s₀ with queued := fun k => if k = url then some (.NarInfo ni)
            else s₀.queued k }, true) := by
    simp [add_incomplete, hq]
  rw [h1]
  have hq2 : (write_nar ({ s₀ with
      queued := fun k => if k = url then some (IncompleteUpload.NarInfo ni)
        else s₀.queued k }) url d).queued url = some (.NarInfo ni) := by
    simp [write_nar]
  simp only [add_incomplete, hq2]
  simp only [complete_upload, finish_nar, write_nar]
  refine ⟨?_, by simp⟩
  refine Sys.ext ?_ ?_ ?_ ?_ ?_
  · funext k
    by_cases hk : k = url <;> simp [hk]
  · funext k
    by_cases hk : k = url <;> simp [hk]
  · funext k
    by_cases hk : k = url <;> simp [hk]
  · simp
  · simp

theorem deliver_bytes_twice_then_info (s₀ : Sys) (url : String)
    (d₁ d₂ : List Nat) (ni : DbPath) (hq : s₀.queued url = none) :
    ((add_incomplete true true true
        (write_nar (add_incomplete true true true (write_nar s₀ url d₁) url .Nar).1
          url d₂) url .Nar).1.queued url = some .Nar ∧
      (∀ k, k ≠ url →
        (add_incomplete true true true
          (write_nar (add_incomplete true true true (write_nar s₀ url d₁) url .Nar).1
            url d₂) url .Nar).1.queued k = s₀.queued k) ∧
      (add_incomplete true true true
        (write_nar (add_incomplete true true true (write_nar s₀ url d₁) url .Nar).1
          url d₂) url .Nar).1.staged url = some d₂ ∧
      (add_incomplete true true true
        (write_nar (add_incomplete true true true (write_nar s₀ url d₁) url .Nar).1
          url d₂) url .Nar).1.promoteCalls = s₀.promoteCalls ∧
      (add_incomplete true true true
        (write_nar (add_incomplete true true true (write_nar s₀ url d₁) url .Nar).1
          url d₂) url .Nar).1.rows = s₀.rows) ∧
    ((add_incomplete true true true
        (add_incomplete true true true
          (write_nar (add_incomplete true true true (write_nar s₀ url d₁) url .Nar).1
            url d₂) url .Nar).1 url (.NarInfo ni)).1.final url = some d₂ ∧
      (add_incomplete true true true
        (add_incomplete true true true
          (write_nar (add_incomplete true true true (write_nar s₀ url d₁) url .Nar).1
            url d₂) url .Nar).1 url (.NarInfo ni)).1.rows = s₀.rows ++ [ni] ∧
      (add_incomplete true true true
        (add_incomplete true true true
          (write_nar (add_incomplete true true true (write_nar s₀ url d₁) url .Nar).1
            url d₂) url .Nar).1 url (.NarInfo ni)).1.promoteCalls
        = s₀.promoteCalls ++ [url]) := by
  have hq1 : (write_nar s₀ url d₁).queued url = none := hq
  have h1 : (add_incomplete true true true (write_nar s₀ url d₁) url .Nar)
      = ({ write_nar s₀ url d₁ with
            queued := fun k => if k = url then some .Nar
              else (write_nar s₀ url d₁).queued k }, true) := by
    simp [add_incomplete, hq1]
  rw [h1]
  have hq2 : (write_nar ({ write_nar s₀ url d₁ with
      queued := fun k => if k = url then some IncompleteUpload.Nar
        else (write_nar s₀ url d₁).queued k }) url d₂).queued url
      = some .Nar := by simp [write_nar]
  have h2 : (add_incomplete true true true
      (write_nar ({ write_nar s₀ url d₁ with
        queued := fun k => if k = url then some IncompleteUpload.Nar
          else (write_nar s₀ url d₁).queued k }) url d₂) url .Nar)
      = ({ write_nar ({ write_nar s₀ url d₁ with
            queued := fun k => if k = url then some IncompleteUpload.Nar
              else (write_nar s₀ url d₁).queued k }) url d₂ with
            queued := fun k => if k = url then some .Nar
              else (write_nar ({ write_nar s₀ url d₁ with
                queued := fun k => if k = url then some IncompleteUpload.Nar
                  else (write_nar s₀ url d₁).queued k }) url d₂).queued k },
          true) := by
    simp [add_incomplete, hq2]
  rw [h2]
  constructor
  · refine ⟨by simp, ?_, by simp [write_nar], by simp [write_nar],
      by simp [write_nar]⟩
    intro k hk
    simp [hk, write_nar]
  · have hq3 : (({ write_nar ({ write_nar s₀ url d₁ with
        queued := fun k => if k = url then some IncompleteUpload.Nar
          else (write_nar s₀ url d₁).queued k }) url d₂ with
        queued := fun k => if k = url then some IncompleteUpload.Nar
          else (write_nar ({ write_nar s₀ url d₁ with
            queued := fun k => if k = url then some IncompleteUpload.Nar
              else (write_nar s₀ url d₁).queued k }) url d₂).queued k }) : Sys).queued url
        = some .Nar := by simp
    simp only [add_incomplete, hq3]
    have hstaged : (({ write_nar ({ write_nar s₀ url d₁ with
        queued := fun k => if k = url then some IncompleteUpload.Nar
          else (write_nar s₀ url d₁).queued k }) url d₂ with
        queued := fun k => if k = url then some IncompleteUpload.Nar
          else (write_nar ({ write_nar s₀ url d₁ with
            queued := fun k => if k = url then some IncompleteUpload.Nar
              else (write_nar s₀ url d₁).queued k }) url d₂).queued k }) : Sys).staged url
        = some d₂ := by simp [write_nar]
    simp only [complete_upload, finish_nar, write_nar]
    refine ⟨by simp, by simp, by simp⟩

/-- C2. From a state with no pending entry for the key and empty logs:
delivering the bytes part then the metadata part finalizes exactly once —
exactly one promote call and exactly one index row, the key no longer
pending; delivering the two parts in the reverse order produces the
identical end state; and delivering the bytes part twice before any
metadata leaves exactly one pending entry with the second staged bytes
replacing the first, a later finalization promoting only the second. -/
theorem pairing_exactly_once (s₀ : Sys) (url : String) (d d₁ d₂ : List Nat)
    (ni : DbPath) (hq : s₀.queued url = none)
    (hrows : s₀.rows = []) (hpc : s₀.promoteCalls = []) :
    ((add_incomplete true true true
        (add_incomplete true true true (write_nar s₀ url d) url .Nar).1
        url (.NarInfo ni)).1.promoteCalls = [url] ∧
      (add_incomplete true true true
        (add_incomplete true true true (write_nar s₀ url d) url .Nar).1
        url (.NarInfo ni)).1.rows = [ni] ∧
      (add_incomplete true true true
        (add_incomplete true true true (write_nar s₀ url d) url .Nar).1
        url (.NarInfo ni)).1.queued url = none ∧
      (add_incomplete true true true
        (add_incomplete true true true (write_nar s₀ url d) url .Nar).1
        url (.NarInfo ni)).1.final url = some d) ∧
    ((add_incomplete true true true
        (add_incomplete true true true (write_nar s₀ url d) url .Nar).1
        url (.NarInfo ni)).1
      = (add_incomplete true true true
          (write_nar (add_incomplete true true true s₀ url (.NarInfo ni)).1 url d)
          url .Nar).1) ∧
    ((add_incomplete true true true
        (write_nar (add_incomplete true true true (write_nar s₀ url d₁) url .Nar).1
          url d₂) url .Nar).1.queued url = some .Nar ∧
      (∀ k, k ≠ url →
        (add_incomplete true true true
          (write_nar (add_incomplete true true true (write_nar s₀ url d₁) url .Nar).1
            url d₂) url .Nar).1.queued k = s₀.queued k) ∧
      (add_incomplete true true true
        (write_nar (add_incomplete true true true (write_nar s₀ url d₁) url .Nar).1
          url d₂) url .Nar).1.promoteCalls = [] ∧
      (add_incomplete true true true
        (write_nar (add_incomplete true true true (write_nar s₀ url d₁) url .Nar).1
          url d₂) url .Nar).1.staged url = some d₂ ∧
      (add_incomplete true true true
        (add_incomplete true true true
          (write_nar (add_incomplete true true true (write_nar s₀ url d₁) url .Nar).1
            url d₂) url .Nar).1 url (.NarInfo ni)).1.final url = some d₂ ∧
      (add_incomplete true true true
        (add_incomplete true true true
          (write_nar (add_incomplete true true true (write_nar s₀ url d₁) url .Nar).1
            url d₂) url .Nar).1 url (.NarInfo ni)).1.rows = [ni] ∧
      (add_incomplete true true true
        (add_incomplete true true true
          (write_nar (add_incomplete true true true (write_nar s₀ url d₁) url .Nar).1
            url d₂) url .Nar).1 url (.NarInfo ni)).1.promoteCalls = [url]) := by
  obtain ⟨hA, -⟩ := deliver_bytes_then_info s₀ url d ni hq
  obtain ⟨hB, -⟩ := deliver_info_then_bytes s₀ url d ni hq
  obtain ⟨hC1, hC2⟩ := deliver_bytes_twice_then_info s₀ url d₁ d₂ ni hq
  refine ⟨?_, ?_, ?_⟩
  · rw [hA]
    refine ⟨by simp [hpc], by simp [hrows], by simp, by simp⟩
  · rw [hA, hB]
  · obtain ⟨hc1, hc2, hc3, hc4, hc5⟩ := hC1
    obtain ⟨hd1, hd2, hd3⟩ := hC2
    exact ⟨hc1, hc2, by simp [hc4, hpc], hc3, hd1,
      by simp [hd2, hrows], by simp [hd3, hpc]⟩

/-- Witness for C2 on a concrete empty initial state. -/
theorem pairing_exactly_once_witness :
    let s₀ : Sys := ⟨fun _ => none, fun _ => none, fun _ => none, [], []⟩
    let d0 : DbPath := ⟨"x", "p", none, none, 1, "md5:", none, none,
      some "nar/x.nar.xz", none, none, none, "k:", ""⟩
    (add_incomplete true true true
        (add_incomplete true true true (write_nar s₀ "x.nar.xz" [1]) "x.nar.xz" .Nar).1
        "x.nar.xz" (.NarInfo d0)).1.promoteCalls = ["x.nar.xz"] ∧
      (add_incomplete true true true
        (add_incomplete true true true (write_nar s₀ "x.nar.xz" [1]) "x.nar.xz" .Nar).1
        "x.nar.xz" (.NarInfo d0)).1.rows = [d0] := by
  intro s₀ d0
  have h := pairing_exactly_once s₀ "x.nar.xz" [1] [1] [2] d0 rfl rfl rfl
  exact ⟨h.1.1, h.1.2.1⟩

/-! ### C6: round trip of the NarInfo codec — helper lemmas -/

theorem data_string_join (ls : List String) :
    (String.join ls).data = (ls.map String.data).flatten := by
  suffices h : ∀ (acc : String),
      (ls.foldl (· ++ ·) acc).data = acc.data ++ (ls.map String.data).flatten by
    have := h ""
    simpa [String.join] using this
  induction ls with
  | nil => intro acc; simp
  | cons s rest ih =>
    intro acc
    simp only [List.foldl_cons, List.map_cons, List.flatten]
    rw [ih (acc ++ s)]
    simp [String.data_append]

theorem splitOnChar_no_sep (sep : Char) (l : List Char) (h : sep ∉ l) :
    splitOnChar sep l = [l] := by
  induction l with
  | nil => rfl
  | cons c cs ih =>
    have hcs : splitOnChar sep cs = [cs] := ih (fun hm => h (by simp [hm]))
    have hc : ¬ c = sep := fun hc => h (by simp [hc.symm])
    simp [splitOnChar, hcs, hc]

theorem splitOnChar_sep_append (sep : Char) (l r : List Char) (h : sep ∉ l) :
    splitOnChar sep (l ++ sep :: r) = l :: splitOnChar sep r := by
  induction l with
  | nil =>
    simp only [List.nil_append]
    cases hr : splitOnChar sep r with
    | nil => simp [splitOnChar, hr]
    | cons a b => simp [splitOnChar, hr]
  | cons c cs ih =>
    have hic := ih (fun hm => h (by simp [hm]))
    have hc : ¬ c = sep := fun hc => h (by simp [hc.symm])
    simp only [List.cons_append]
    simp [splitOnChar, hic, hc]

theorem stripCR_no_cr (l : List Char) (h : l.getLast? ≠ some '\r') :
    stripCR l = l := by
  unfold stripCR
  cases hg : l.getLast? with
  | none => rfl
  | some c =>
    have hc : ¬ c = '\r' := fun hc => h (by rw [hg, hc])
    simp [hc]

theorem linesOf_of_lines (ls : List (List Char))
    (h : ∀ l ∈ ls, '\n' ∉ l ∧ l.getLast? ≠ some '\r') :
    linesOf ((ls.map (fun l => l ++ ['\n'])).flatten) = ls := by
  have hsplit : splitOnChar '\n' ((ls.map (fun l => l ++ ['\n'])).flatten)
      = ls ++ [[]] := by
    induction ls with
    | nil => rfl
    | cons l rest ih =>
      simp only [List.map_cons, List.flatten]
      have : l ++ ['\n'] ++ (rest.map (fun l => l ++ ['\n'])).flatten
          = l ++ '\n' :: (rest.map (fun l => l ++ ['\n'])).flatten := by
        simp
      rw [this, splitOnChar_sep_append '\n' _ _ (h l (by simp)).1]
      rw [ih (fun x hx => h x (by simp [hx]))]
      rfl
  unfold linesOf
  rw [hsplit]
  have hlast : (ls ++ [[]]).getLast? = some [] := by
    rw [List.getLast?_append]
    rfl
  show ((if (ls ++ [[]]).getLast? = some [] then (ls ++ [[]]).dropLast
    else ls ++ [[]]).map stripCR) = ls
  rw [if_pos hlast]
  have hdrop : (ls ++ [[]]).dropLast = ls := by
    simp
  rw [hdrop]
  have : ∀ x ∈ ls, stripCR x = x := fun x hx => stripCR_no_cr x (h x hx).2
  exact List.map_congr_left (fun x hx => this x hx) |>.trans (List.map_id ls)

theorem dropPre_append (l₁ l₂ : List Char) : dropPre l₁ (l₁ ++ l₂) = some l₂ := by
  induction l₁ with
  | nil => rfl
  | cons c cs ih =>
    simp only [List.cons_append]
    unfold dropPre
    rw [if_pos rfl]
    exact ih

theorem dropPre_sound (p l t : List Char) (h : dropPre p l = some t) :
    l = p ++ t := by
  induction p generalizing l with
  | nil => cases h; rfl
  | cons c cs ih =>
    cases l with
    | nil => cases h
    | cons x xs =>
      unfold dropPre at h
      by_cases hc : c = x
      · rw [if_pos hc] at h
        subst hc
        rw [ih xs h]
        rfl
      · rw [if_neg hc] at h
        cases h

theorem insertAssoc_not_mem (k : String) (v : List Nat)
    (m : List (String × List Nat)) (h : k ∉ m.map Prod.fst) :
    insertAssoc k v m = m ++ [(k, v)] := by
  induction m with
  | nil => rfl
  | cons p rest ih =>
    unfold insertAssoc
    rw [if_neg (fun hk => h (by simp [hk]))]
    rw [ih (fun hm => h (by simp [hm]))]
    rfl

theorem foldl_insertAssoc_nodup (ps : List (String × List Nat)) :
    ∀ acc : List (String × List Nat),
      ((acc ++ ps).map Prod.fst).Nodup →
      ps.foldl (fun m p => insertAssoc p.1 p.2 m) acc = acc ++ ps := by
  induction ps with
  | nil => intro acc _; simp
  | cons p rest ih =>
    intro acc hnd
    simp only [List.foldl_cons]
    have hmem : p.1 ∉ acc.map Prod.fst := by
      intro hm
      rw [List.map_append, List.nodup_append] at hnd
      exact hnd.2.2 hm (by simp)
    rw [insertAssoc_not_mem p.1 p.2 acc hmem]
    have : acc ++ [(p.1, p.2)] ++ rest = acc ++ p :: rest := by simp
    rw [← this] at hnd ⊢
    exact ih (acc ++ [(p.1, p.2)]) (by simpa using hnd)

theorem mkRefsSet_of_sorted (l : List String) (h : l.Pairwise (· < ·)) :
    mkRefsSet l = l := by
  apply eq_of_pairwise_of_mem_iff
  · exact mkRefsSet_pairwise_aux l [] List.Pairwise.nil
  · exact h
  · intro x
    rw [mkRefsSet, mkRefsSet_mem_aux]
    simp

theorem splitOnChar_interleave (sep : Char) (t : List Char) (ts : List (List Char))
    (ht : sep ∉ t) (hts : ∀ u ∈ ts, sep ∉ u) :
    splitOnChar sep (t ++ (ts.map (fun u => sep :: u)).flatten) = t :: ts := by
  induction ts generalizing t with
  | nil =>
    simp only [List.map_nil, List.flatten, List.append_nil]
    exact splitOnChar_no_sep sep t ht
  | cons u us ih =>
    simp only [List.map_cons, List.flatten]
    have : t ++ (sep :: u ++ (us.map (fun u => sep :: u)).flatten)
        = t ++ sep :: (u ++ (us.map (fun u => sep :: u)).flatten) := by simp
    rw [this, splitOnChar_sep_append sep _ _ ht]
    rw [ih u (hts u (by simp)) (fun x hx => hts x (by simp [hx]))]

theorem signature_fromStr_toStr (name : String) (bytes : List Nat)
    (hn : ':' ∉ name.data) (hb : ∀ b ∈ bytes, b < 256) :
    Signature.fromStr (Signature.toStr ⟨name, bytes⟩) = .ok ⟨name, bytes⟩ := by
  have hdata : (Signature.toStr ⟨name, bytes⟩).data
      = name.data ++ ':' :: base64Encode bytes := by
    simp [Signature.toStr, String.data_append]
  unfold Signature.fromStr
  rw [hdata, splitAtChar_append ':' _ _ hn]
  simp [base64Decode_base64Encode bytes hb]

@[simp] theorem string_mk_data (s : String) : String.mk s.data = s := rfl

theorem nixhash_fromStr_toStr (h : NixHash) (hb : ∀ b ∈ h.hash, b < 256) :
    NixHash.fromStr h.toStr = .ok h :=
  nixhash_parse_encode h.hash_type h.hash hb

theorem compression_fromStr_asRef (c : Compression) :
    Compression.fromStr c.asRef = some c := by
  cases c <;> decide

theorem parseLine_storePath (acc : ParseAcc) (v : String) :
    parseLine acc (("StorePath: " ++ v).data) = .ok { acc with path := some v } := by
  have h2 : ("StorePath: ").data = "StorePath".data ++ [':', ' '] := by decide
  have hd : ("StorePath: " ++ v).data = "StorePath".data ++ ':' :: ' ' :: (v).data := by
    rw [String.data_append, h2]
    simp
  have hsp := splitAtChar_append ':' ("StorePath".data) (' ' :: (v).data) (by decide)
  unfold parseLine
  rw [hd, hsp]
  simp []

theorem parseLine_narHash (acc : ParseAcc) (h : NixHash) (hb : ∀ b ∈ h.hash, b < 256) :
    parseLine acc (("NarHash: " ++ h.toStr).data) = .ok { acc with nar_hash := some h } := by
  have h2 : ("NarHash: ").data = "NarHash".data ++ [':', ' '] := by decide
  have hd : ("NarHash: " ++ h.toStr).data = "NarHash".data ++ ':' :: ' ' :: (h.toStr).data := by
    rw [String.data_append, h2]
    simp
  have hsp := splitAtChar_append ':' ("NarHash".data) (' ' :: (h.toStr).data) (by decide)
  unfold parseLine
  rw [hd, hsp]
  simp [(show ¬("NarHash".data = "StorePath".data) by decide),
    nixhash_fromStr_toStr h hb, Except.map]

theorem parseLine_narSize (acc : ParseAcc) (m : Nat) (hm : m < 2 ^ 64) :
    parseLine acc (("NarSize: " ++ (⟨natToChars m⟩ : String)).data) = .ok { acc with nar_size := some m } := by
  have h2 : ("NarSize: ").data = "NarSize".data ++ [':', ' '] := by decide
  have hd : ("NarSize: " ++ (⟨natToChars m⟩ : String)).data = "NarSize".data ++ ':' :: ' ' :: ((⟨natToChars m⟩ : String)).data := by
    rw [String.data_append, h2]
    simp
  have hsp := splitAtChar_append ':' ("NarSize".data) (' ' :: ((⟨natToChars m⟩ : String)).data) (by decide)
  unfold parseLine
  rw [hd, hsp]
  simp [parseU64_natToChars m hm, (show ¬("NarSize".data = "StorePath".data) by decide), (show ¬("NarSize".data = "NarHash".data) by decide)]

theorem parseLine_fileHash (acc : ParseAcc) (h : NixHash) (hb : ∀ b ∈ h.hash, b < 256) :
    parseLine acc (("FileHash: " ++ h.toStr).data) = .ok { acc with file_hash := some h } := by
  have h2 : ("FileHash: ").data = "FileHash".data ++ [':', ' '] := by decide
  have hd : ("FileHash: " ++ h.toStr).data = "FileHash".data ++ ':' :: ' ' :: (h.toStr).data := by
    rw [String.data_append, h2]
    simp
  have hsp := splitAtChar_append ':' ("FileHash".data) (' ' :: (h.toStr).data) (by decide)
  unfold parseLine
  rw [hd, hsp]
  simp [nixhash_fromStr_toStr h hb, Except.map, (show ¬("FileHash".data = "StorePath".data) by decide), (show ¬("FileHash".data = "NarHash".data) by decide), (show ¬("FileHash".data = "NarSize".data) by decide)]

theorem parseLine_fileSize (acc : ParseAcc) (m : Nat) (hm : m < 2 ^ 64) :
    parseLine acc (("FileSize: " ++ (⟨natToChars m⟩ : String)).data) = .ok { acc with file_size := some m } := by
  have h2 : ("FileSize: ").data = "FileSize".data ++ [':', ' '] := by decide
  have hd : ("FileSize: " ++ (⟨natToChars m⟩ : String)).data = "FileSize".data ++ ':' :: ' ' :: ((⟨natToChars m⟩ : String)).data := by
    rw [String.data_append, h2]
    simp
  have hsp := splitAtChar_append ':' ("FileSize".data) (' ' :: ((⟨natToChars m⟩ : String)).data) (by decide)
  unfold parseLine
  rw [hd, hsp]
  simp [parseU64_natToChars m hm, (show ¬("FileSize".data = "StorePath".data) by decide), (show ¬("FileSize".data = "NarHash".data) by decide), (show ¬("FileSize".data = "NarSize".data) by decide), (show ¬("FileSize".data = "FileHash".data) by decide)]

theorem parseLine_url (acc : ParseAcc) (v : String) :
    parseLine acc (("URL: " ++ v).data) = .ok { acc with url := some v } := by
  have h2 : ("URL: ").data = "URL".data ++ [':', ' '] := by decide
  have hd : ("URL: " ++ v).data = "URL".data ++ ':' :: ' ' :: (v).data := by
    rw [String.data_append, h2]
    simp
  have hsp := splitAtChar_append ':' ("URL".data) (' ' :: (v).data) (by decide)
  unfold parseLine
  rw [hd, hsp]
  simp [(show ¬("URL".data = "StorePath".data) by decide), (show ¬("URL".data = "NarHash".data) by decide), (show ¬("URL".data = "NarSize".data) by decide), (show ¬("URL".data = "FileHash".data) by decide), (show ¬("URL".data = "FileSize".data) by decide)]

theorem parseLine_compression (acc : ParseAcc) (c : Compression) :
    parseLine acc (("Compression: " ++ c.asRef).data) = .ok { acc with compression := some c } := by
  have h2 : ("Compression: ").data = "Compression".data ++ [':', ' '] := by decide
  have hd : ("Compression: " ++ c.asRef).data = "Compression".data ++ ':' :: ' ' :: (c.asRef).data := by
    rw [String.data_append, h2]
    simp
  have hsp := splitAtChar_append ':' ("Compression".data) (' ' :: (c.asRef).data) (by decide)
  unfold parseLine
  rw [hd, hsp]
  simp [compression_fromStr_asRef c, (show ¬("Compression".data = "StorePath".data) by decide), (show ¬("Compression".data = "NarHash".data) by decide), (show ¬("Compression".data = "NarSize".data) by decide), (show ¬("Compression".data = "FileHash".data) by decide), (show ¬("Compression".data = "FileSize".data) by decide), (show ¬("Compression".data = "URL".data) by decide)]

theorem parseLine_deriver (acc : ParseAcc) (v : String) :
    parseLine acc (("Deriver: " ++ v).data) = .ok { acc with deriver := some v } := by
  have h2 : ("Deriver: ").data = "Deriver".data ++ [':', ' '] := by decide
  have hd : ("Deriver: " ++ v).data = "Deriver".data ++ ':' :: ' ' :: (v).data := by
    rw [String.data_append, h2]
    simp
  have hsp := splitAtChar_append ':' ("Deriver".data) (' ' :: (v).data) (by decide)
  unfold parseLine
  rw [hd, hsp]
  simp [(show ¬("Deriver".data = "StorePath".data) by decide), (show ¬("Deriver".data = "NarHash".data) by decide), (show ¬("Deriver".data = "NarSize".data) by decide), (show ¬("Deriver".data = "FileHash".data) by decide), (show ¬("Deriver".data = "FileSize".data) by decide), (show ¬("Deriver".data = "URL".data) by decide), (show ¬("Deriver".data = "Compression".data) by decide)]

theorem parseLine_sig (acc : ParseAcc) (k : String) (b : List Nat) (hk : ':' ∉ k.data) (hb : ∀ x ∈ b, x < 256) :
    parseLine acc (("Sig: " ++ Signature.toStr ⟨k, b⟩).data) = .ok { acc with signatures := insertAssoc k b acc.signatures } := by
  have h2 : ("Sig: ").data = "Sig".data ++ [':', ' '] := by decide
  have hd : ("Sig: " ++ Signature.toStr ⟨k, b⟩).data = "Sig".data ++ ':' :: ' ' :: (Signature.toStr ⟨k, b⟩).data := by
    rw [String.data_append, h2]
    simp
  have hsp := splitAtChar_append ':' ("Sig".data) (' ' :: (Signature.toStr ⟨k, b⟩).data) (by decide)
  unfold parseLine
  rw [hd, hsp]
  simp [signature_fromStr_toStr k b hk hb, Except.map, (show ¬("Sig".data = "StorePath".data) by decide), (show ¬("Sig".data = "NarHash".data) by decide), (show ¬("Sig".data = "NarSize".data) by decide), (show ¬("Sig".data = "FileHash".data) by decide), (show ¬("Sig".data = "FileSize".data) by decide), (show ¬("Sig".data = "URL".data) by decide), (show ¬("Sig".data = "Compression".data) by decide), (show ¬("Sig".data = "Deriver".data) by decide), (show ¬("Sig".data = "References".data) by decide)]

/-- A reference is well formed when it carries the store-root prefix and
its suffix contains no space, newline or carriage return. -/
def refOk (r : String) : Prop :=
  match dropPre storeRoot.data r.data with
  | some t => ' ' ∉ t ∧ '\n' ∉ t ∧ '\r' ∉ t
  | none => False

/-- The store-root-stripped suffix of a reference. -/
def stripRef (r : String) : String :=
  ⟨(dropPre storeRoot.data r.data).getD r.data⟩

theorem refOk_elim (r : String) (h : refOk r) :
    r = storeRoot ++ stripRef r ∧ ' ' ∉ (stripRef r).data ∧
      '\n' ∉ (stripRef r).data ∧ '\r' ∉ (stripRef r).data := by
  unfold refOk at h
  cases hdp : dropPre storeRoot.data r.data with
  | none => rw [hdp] at h; cases h
  | some t =>
    rw [hdp] at h
    have hr : r.data = storeRoot.data ++ t := dropPre_sound _ _ _ hdp
    have hs : stripRef r = ⟨t⟩ := by unfold stripRef; rw [hdp]; rfl
    refine ⟨?_, by rw [hs]; exact h.1, by rw [hs]; exact h.2.1,
      by rw [hs]; exact h.2.2⟩
    apply String.ext
    rw [hr, hs, String.data_append]

theorem refsLine_eq (ts : List String) :
    refsLine (ts.map (fun t => storeRoot ++ t))
      = "References:" ++ String.join (ts.map (fun t => " " ++ t)) := by
  unfold refsLine
  congr 1
  congr 1
  rw [List.map_map]
  apply List.map_congr_left
  intro t _
  show (match dropPre storeRoot.data (storeRoot ++ t).data with
    | some stripped => " " ++ (⟨stripped⟩ : String)
    | none => "") = " " ++ t
  rw [String.data_append, dropPre_append]

theorem parseLine_references (acc : ParseAcc) (t₀ : String) (ts : List String)
    (h0 : ' ' ∉ t₀.data) (hts : ∀ t ∈ ts, ' ' ∉ t.data) :
    parseLine acc ((refsLine ((t₀ :: ts).map (fun t => storeRoot ++ t))).data)
      = .ok { acc with
          references := insertRefs acc.references ((t₀ :: ts).map String.data) } := by
  have hjoin : (String.join ((t₀ :: ts).map (fun t => " " ++ t))).data
      = ' ' :: (t₀.data ++ (ts.map (fun t => ' ' :: t.data)).flatten) := by
    rw [data_string_join, List.map_map]
    have hmap : (t₀ :: ts).map (String.data ∘ fun t => " " ++ t)
        = (t₀ :: ts).map (fun t => ' ' :: t.data) := by
      apply List.map_congr_left
      intro t _
      show (" " ++ t).data = ' ' :: t.data
      rw [String.data_append]
      rfl
    rw [hmap]
    simp
  have hd : (refsLine ((t₀ :: ts).map (fun t => storeRoot ++ t))).data
      = "References".data ++ ':' :: ' '
        :: (t₀.data ++ (ts.map (fun t => ' ' :: t.data)).flatten) := by
    rw [refsLine_eq, String.data_append, hjoin]
    have : "References:".data = "References".data ++ [':'] := by decide
    rw [this]
    simp
  have hsp := splitAtChar_append ':' ("References".data)
    (' ' :: (t₀.data ++ (ts.map (fun t => ' ' :: t.data)).flatten)) (by decide)
  have hsplit : splitOnChar ' '
      (t₀.data ++ (ts.map (fun t => ' ' :: t.data)).flatten)
      = t₀.data :: ts.map String.data := by
    have hmap : ts.map (fun t => ' ' :: t.data)
        = (ts.map String.data).map (fun u => ' ' :: u) := by
      rw [List.map_map]
      rfl
    rw [hmap]
    have := splitOnChar_interleave ' ' t₀.data (ts.map String.data) h0 ?_
    · exact this
    · intro u hu
      obtain ⟨t, ht, rfl⟩ := List.mem_map.mp hu
      exact hts t ht
  unfold parseLine
  rw [hd, hsp]
  simp [hsplit, (show ¬("References".data = "StorePath".data) by decide),
    (show ¬("References".data = "NarHash".data) by decide),
    (show ¬("References".data = "NarSize".data) by decide),
    (show ¬("References".data = "FileHash".data) by decide),
    (show ¬("References".data = "FileSize".data) by decide),
    (show ¬("References".data = "URL".data) by decide),
    (show ¬("References".data = "Compression".data) by decide),
    (show ¬("References".data = "Deriver".data) by decide)]

theorem parseLine_ca (acc : ParseAcc) (v : String) :
    parseLine acc (("CA: " ++ v).data) = .ok { acc with ca := some v } := by
  have h2 : ("CA: ").data = "CA".data ++ [':', ' '] := by decide
  have hd : ("CA: " ++ v).data = "CA".data ++ ':' :: ' ' :: (v).data := by
    rw [String.data_append, h2]
    simp
  have hsp := splitAtChar_append ':' ("CA".data) (' ' :: (v).data) (by decide)
  unfold parseLine
  rw [hd, hsp]
  simp [(show ¬("CA".data = "StorePath".data) by decide), (show ¬("CA".data = "NarHash".data) by decide), (show ¬("CA".data = "NarSize".data) by decide), (show ¬("CA".data = "FileHash".data) by decide), (show ¬("CA".data = "FileSize".data) by decide), (show ¬("CA".data = "URL".data) by decide), (show ¬("CA".data = "Compression".data) by decide), (show ¬("CA".data = "Deriver".data) by decide), (show ¬("CA".data = "References".data) by decide), (show ¬("CA".data = "Sig".data) by decide)]

/-! ### C6: folding the parser over the serializer's lines -/

theorem foldlM_parseLine_cons_ok (l : List Char) (ls : List (List Char))
    (acc acc' : ParseAcc) (h : parseLine acc l = .ok acc') :
    (l :: ls).foldlM parseLine acc = ls.foldlM parseLine acc' := by
  rw [List.foldlM_cons, h]
  rfl

theorem foldlM_parseLine_step (ls₁ ls₂ : List (List Char)) (acc acc' : ParseAcc)
    (h : ls₁.foldlM parseLine acc = .ok acc') :
    (ls₁ ++ ls₂).foldlM parseLine acc = ls₂.foldlM parseLine acc' := by
  rw [List.foldlM_append, h]
  rfl

theorem foldlM_seg_fileHash (acc : ParseAcc) (fh : Option NixHash)
    (hacc : acc.file_hash = none)
    (hb : ∀ h, fh = some h → ∀ b ∈ h.hash, b < 256) :
    ((match fh with
      | some h => ["FileHash: " ++ h.toStr]
      | none => ([] : List String)).map String.data).foldlM parseLine acc
      = .ok { acc with file_hash := fh } := by
  cases fh with
  | none =>
    show ([] : List (List Char)).foldlM parseLine acc = _
    rw [List.foldlM_nil, ← hacc]
    rfl
  | some h =>
    show (["FileHash: " ++ h.toStr].map String.data).foldlM parseLine acc = _
    rw [List.map_cons, List.map_nil,
      foldlM_parseLine_cons_ok _ _ _ _ (parseLine_fileHash acc h (hb h rfl)),
      List.foldlM_nil]
    rfl

theorem foldlM_seg_fileSize (acc : ParseAcc) (fs : Option Nat)
    (hacc : acc.file_size = none)
    (hv : ∀ v, fs = some v → v < 2 ^ 64) :
    ((match fs with
      | some v => ["FileSize: " ++ (⟨natToChars v⟩ : String)]
      | none => ([] : List String)).map String.data).foldlM parseLine acc
      = .ok { acc with file_size := fs } := by
  cases fs with
  | none =>
    show ([] : List (List Char)).foldlM parseLine acc = _
    rw [List.foldlM_nil, ← hacc]
    rfl
  | some v =>
    show (["FileSize: " ++ (⟨natToChars v⟩ : String)].map String.data).foldlM parseLine acc = _
    rw [List.map_cons, List.map_nil,
      foldlM_parseLine_cons_ok _ _ _ _ (parseLine_fileSize acc v (hv v rfl)),
      List.foldlM_nil]
    rfl

theorem foldlM_seg_url (acc : ParseAcc) (u : Option String)
    (hacc : acc.url = none) :
    ((match u with
      | some v => ["URL: " ++ v]
      | none => ([] : List String)).map String.data).foldlM parseLine acc
      = .ok { acc with url := u } := by
  cases u with
  | none =>
    show ([] : List (List Char)).foldlM parseLine acc = _
    rw [List.foldlM_nil, ← hacc]
    rfl
  | some v =>
    show (["URL: " ++ v].map String.data).foldlM parseLine acc = _
    rw [List.map_cons, List.map_nil,
      foldlM_parseLine_cons_ok _ _ _ _ (parseLine_url acc v), List.foldlM_nil]
    rfl

theorem foldlM_seg_compression (acc : ParseAcc) (c : Option Compression)
    (hacc : acc.compression = none) :
    ((match c with
      | some v => ["Compression: " ++ v.asRef]
      | none => ([] : List String)).map String.data).foldlM parseLine acc
      = .ok { acc with compression := c } := by
  cases c with
  | none =>
    show ([] : List (List Char)).foldlM parseLine acc = _
    rw [List.foldlM_nil, ← hacc]
    rfl
  | some v =>
    show (["Compression: " ++ v.asRef].map String.data).foldlM parseLine acc = _
    rw [List.map_cons, List.map_nil,
      foldlM_parseLine_cons_ok _ _ _ _ (parseLine_compression acc v),
      List.foldlM_nil]
    rfl

theorem foldlM_seg_deriver (acc : ParseAcc) (dv : Option String)
    (hacc : acc.deriver = none) :
    ((match dv with
      | some v => ["Deriver: " ++ v]
      | none => ([] : List String)).map String.data).foldlM parseLine acc
      = .ok { acc with deriver := dv } := by
  cases dv with
  | none =>
    show ([] : List (List Char)).foldlM parseLine acc = _
    rw [List.foldlM_nil, ← hacc]
    rfl
  | some v =>
    show (["Deriver: " ++ v].map String.data).foldlM parseLine acc = _
    rw [List.map_cons, List.map_nil,
      foldlM_parseLine_cons_ok _ _ _ _ (parseLine_deriver acc v),
      List.foldlM_nil]
    rfl

theorem foldlM_seg_ca (acc : ParseAcc) (ca : Option String)
    (hacc : acc.ca = none) :
    ((match ca with
      | some v => ["CA: " ++ v]
      | none => ([] : List String)).map String.data).foldlM parseLine acc
      = .ok { acc with ca := ca } := by
  cases ca with
  | none =>
    show ([] : List (List Char)).foldlM parseLine acc = _
    rw [List.foldlM_nil, ← hacc]
    rfl
  | some v =>
    show (["CA: " ++ v].map String.data).foldlM parseLine acc = _
    rw [List.map_cons, List.map_nil,
      foldlM_parseLine_cons_ok _ _ _ _ (parseLine_ca acc v), List.foldlM_nil]
    rfl

theorem insertRefs_strip (refs : List String) :
    ∀ acc : List String, (∀ r ∈ refs, refOk r) →
      insertRefs acc ((refs.map stripRef).map String.data)
        = refs.foldl (fun a r => insertSorted r a) acc := by
  induction refs with
  | nil => intro acc _; rfl
  | cons r rest ih =>
    intro acc hok
    show insertRefs acc (((stripRef r).data) :: (rest.map stripRef).map String.data)
      = (r :: rest).foldl (fun a r => insertSorted r a) acc
    unfold insertRefs
    rw [List.foldl_cons, List.foldl_cons]
    have hr : storeRoot ++ (⟨(stripRef r).data⟩ : String) = r := by
      rw [string_mk_data]
      exact (refOk_elim r (hok r (by simp))).1.symm
    rw [hr]
    exact ih (insertSorted r acc) (fun x hx => hok x (by simp [hx]))

theorem foldlM_seg_refs (acc : ParseAcc) (refs : List String)
    (hacc : acc.references = [])
    (hok : ∀ r ∈ refs, refOk r) (hsorted : refs.Pairwise (· < ·)) :
    ((if refs.length > 0 then [refsLine refs] else ([] : List String)).map
        String.data).foldlM parseLine acc
      = .ok { acc with references := refs } := by
  cases refs with
  | nil =>
    rw [if_neg (by simp)]
    show ([] : List (List Char)).foldlM parseLine acc = _
    rw [List.foldlM_nil, ← hacc]
    rfl
  | cons r rest =>
    rw [if_pos (by simp)]
    have hmap : r :: rest
        = ((stripRef r :: rest.map stripRef).map (fun t => storeRoot ++ t)) := by
      show r :: rest = ((r :: rest).map stripRef).map (fun t => storeRoot ++ t)
      rw [List.map_map]
      symm
      have : ∀ x ∈ r :: rest, ((fun t => storeRoot ++ t) ∘ stripRef) x = id x := by
        intro x hx
        show storeRoot ++ stripRef x = x
        exact (refOk_elim x (hok x hx)).1.symm
      rw [List.map_congr_left this, List.map_id]
    have hline : refsLine (r :: rest)
        = refsLine ((stripRef r :: rest.map stripRef).map (fun t => storeRoot ++ t)) := by
      rw [← hmap]
    have hcons : parseLine acc ((refsLine (r :: rest)).data)
        = .ok { acc with
            references := insertRefs acc.references
              ((stripRef r :: rest.map stripRef).map String.data) } := by
      rw [hline]
      apply parseLine_references
      · exact (refOk_elim r (hok r (by simp))).2.1
      · intro t ht
        obtain ⟨x, hx, rfl⟩ := List.mem_map.mp ht
        exact (refOk_elim x (hok x (by simp [hx]))).2.1
    rw [List.map_cons, List.map_nil,
      foldlM_parseLine_cons_ok _ _ _ _ hcons, List.foldlM_nil]
    have hrefs : insertRefs acc.references
        ((stripRef r :: rest.map stripRef).map String.data) = r :: rest := by
      have h1 : (stripRef r :: rest.map stripRef) = (r :: rest).map stripRef := rfl
      rw [h1, hacc, insertRefs_strip (r :: rest) [] hok]
      show mkRefsSet (r :: rest) = r :: rest
      exact mkRefsSet_of_sorted _ hsorted
    rw [hrefs]
    rfl

theorem foldlM_seg_sigs (sigs : List (String × List Nat)) :
    ∀ acc : ParseAcc,
      (∀ p ∈ sigs, ':' ∉ (p.1 : String).data ∧ ∀ x ∈ p.2, x < 256) →
      ((sigs.map (fun sig => "Sig: " ++ Signature.toStr ⟨sig.1, sig.2⟩)).map
          String.data).foldlM parseLine acc
        = .ok { acc with
            signatures := sigs.foldl (fun m p => insertAssoc p.1 p.2 m)
              acc.signatures } := by
  induction sigs with
  | nil =>
    intro acc _
    show ([] : List (List Char)).foldlM parseLine acc = _
    rw [List.foldlM_nil]
    rfl
  | cons p rest ih =>
    intro acc hp
    rw [List.map_cons, List.map_cons,
      foldlM_parseLine_cons_ok _ _ _ _
        (parseLine_sig acc p.1 p.2 (hp p (by simp)).1 (hp p (by simp)).2)]
    rw [ih _ (fun x hx => hp x (by simp [hx]))]
    rfl

/-! ### C6: line hygiene -/

/-- A string free of newline and carriage-return characters. -/
def noCtl (s : String) : Prop := '\n' ∉ s.data ∧ '\r' ∉ s.data

instance noCtlDecidable (s : String) : Decidable (noCtl s) :=
  inferInstanceAs (Decidable ('\n' ∉ s.data ∧ '\r' ∉ s.data))

instance refOkDecidable (r : String) : Decidable (refOk r) := by
  unfold refOk
  cases dropPre storeRoot.data r.data with
  | none => exact inferInstanceAs (Decidable False)
  | some t => exact inferInstanceAs (Decidable (_ ∧ _ ∧ _))

/-- A predicate on the payload of an optional value (`True` when absent). -/
def optAll {α : Type} (o : Option α) (P : α → Prop) : Prop :=
  match o with
  | some v => P v
  | none => True

instance optAllDecidable {α : Type} (o : Option α) (P : α → Prop)
    [∀ v, Decidable (P v)] : Decidable (optAll o P) := by
  unfold optAll
  cases o with
  | none => exact inferInstanceAs (Decidable True)
  | some v => exact inferInstanceAs (Decidable (P v))

theorem optAll_elim {α : Type} (o : Option α) (P : α → Prop) (h : optAll o P) :
    ∀ v, o = some v → P v := by
  intro v hv
  unfold optAll at h
  rw [hv] at h
  exact h

theorem noCtl_append (a b : String) (ha : noCtl a) (hb : noCtl b) :
    noCtl (a ++ b) := by
  unfold noCtl at *
  rw [String.data_append]
  constructor <;> intro h <;> rcases List.mem_append.mp h with h | h <;> tauto

theorem noCtl_join (ls : List String) (h : ∀ s ∈ ls, noCtl s) :
    noCtl (String.join ls) := by
  unfold noCtl at *
  rw [data_string_join]
  constructor <;> intro hm
  · obtain ⟨l, hl, hc⟩ := List.mem_flatten.mp hm
    obtain ⟨s, hs, rfl⟩ := List.mem_map.mp hl
    exact (h s hs).1 hc
  · obtain ⟨l, hl, hc⟩ := List.mem_flatten.mp hm
    obtain ⟨s, hs, rfl⟩ := List.mem_map.mp hl
    exact (h s hs).2 hc

theorem base32Encode_char (bs : List Nat) (c : Char) (hc : c ∈ base32Encode bs) :
    c ≠ '\n' ∧ c ≠ '\r' := by
  unfold base32Encode at hc
  obtain ⟨d, hd, rfl⟩ := List.mem_map.mp hc
  have hd32 := toBaseBE_digit_lt 32 _ _ (by norm_num) d hd
  have h : ∀ i : Fin 32, base32Chars.getD i.val ' ' ≠ '\n'
      ∧ base32Chars.getD i.val ' ' ≠ '\r' := by decide
  exact h ⟨d, hd32⟩

theorem base64Encode_char (bs : List Nat) (c : Char) (hc : c ∈ base64Encode bs) :
    c ≠ '\n' ∧ c ≠ '\r' := by
  unfold base64Encode at hc
  rcases List.mem_append.mp hc with hc | hc
  · obtain ⟨d, hd, rfl⟩ := List.mem_map.mp hc
    have hd64 := toBaseBE_digit_lt 64 _ _ (by norm_num) d hd
    have h : ∀ i : Fin 64, base64Chars.getD i.val ' ' ≠ '\n'
        ∧ base64Chars.getD i.val ' ' ≠ '\r' := by decide
    exact h ⟨d, hd64⟩
  · have := List.eq_of_mem_replicate hc
    subst this
    decide

theorem natToChars_char (n : Nat) (c : Char) (hc : c ∈ natToChars n) :
    c ≠ '\n' ∧ c ≠ '\r' := by
  unfold natToChars at hc
  obtain ⟨d, hd, rfl⟩ := List.mem_map.mp hc
  have hd10 := toBaseBE_digit_lt 10 _ _ (by norm_num) d hd
  have h : ∀ i : Fin 10, Char.ofNat (48 + i.val) ≠ '\n'
      ∧ Char.ofNat (48 + i.val) ≠ '\r' := by decide
  exact h ⟨d, hd10⟩

theorem noCtl_of_chars (l : List Char)
    (h : ∀ c ∈ l, c ≠ '\n' ∧ c ≠ '\r') : noCtl ⟨l⟩ := by
  unfold noCtl
  constructor <;> intro hm <;> [exact (h _ hm).1 rfl; exact (h _ hm).2 rfl]

theorem noCtl_nixhash (h : NixHash) : noCtl h.toStr := by
  unfold NixHash.toStr
  refine noCtl_append _ _ (noCtl_append _ _ ?_ (by decide))
    (noCtl_of_chars _ (base32Encode_char h.hash))
  cases h.hash_type <;> decide

theorem noCtl_compression (c : Compression) : noCtl c.asRef := by
  cases c <;> decide

theorem noCtl_natToChars (n : Nat) : noCtl ⟨natToChars n⟩ :=
  noCtl_of_chars _ (natToChars_char n)

theorem noCtl_sig_toStr (k : String) (b : List Nat) (hk : noCtl k) :
    noCtl (Signature.toStr ⟨k, b⟩) := by
  unfold Signature.toStr
  exact noCtl_append _ _ (noCtl_append _ _ hk (by decide))
    (noCtl_of_chars _ (base64Encode_char b))

theorem noCtl_refsLine (refs : List String) (hok : ∀ r ∈ refs, refOk r) :
    noCtl (refsLine refs) := by
  unfold refsLine
  refine noCtl_append _ _ (by decide) (noCtl_join _ ?_)
  intro s hs
  obtain ⟨r, hr, rfl⟩ := List.mem_map.mp hs
  have h := hok r hr
  unfold refOk at h
  cases hdp : dropPre storeRoot.data r.data with
  | none => rw [hdp] at h; cases h
  | some t =>
    rw [hdp] at h
    show noCtl (match some t with
      | some stripped => " " ++ (⟨stripped⟩ : String)
      | none => "")
    refine noCtl_append _ _ (by decide) ?_
    unfold noCtl
    exact ⟨h.2.1, h.2.2⟩

/-- Well-formedness of a metadata value: the side conditions under which the
serialize/parse round trip is exact. -/
def NarInfo.WF (n : NarInfo) : Prop :=
  noCtl n.path ∧ n.nar_size < 2 ^ 64 ∧ (∀ b ∈ n.nar_hash.hash, b < 256) ∧
  optAll n.file_hash (fun h => ∀ b ∈ h.hash, b < 256) ∧
  optAll n.file_size (fun v => v < 2 ^ 64) ∧
  optAll n.url noCtl ∧
  optAll n.deriver noCtl ∧
  optAll n.ca noCtl ∧
  (∀ r ∈ n.references, refOk r) ∧ n.references.Pairwise (· < ·) ∧
  (∀ p ∈ n.signatures, (':' ∉ (p.1 : String).data ∧ noCtl p.1) ∧
    ∀ x ∈ p.2, x < 256) ∧
  (n.signatures.map Prod.fst).Nodup

instance wfDecidable (n : NarInfo) : Decidable n.WF := by
  unfold NarInfo.WF
  infer_instance

theorem outLines_ok (n : NarInfo) (h : n.WF) : ∀ l ∈ n.outLines, noCtl l := by
  obtain ⟨hpath, hsz, hhash, hfh, hfs, hurl, hdrv, hca, hrefs, hsort, hsigs, hnd⟩ := h
  intro l hl
  unfold NarInfo.outLines at hl
  rcases List.mem_append.mp hl with hl | hl
  rotate_left
  · obtain ⟨v, hv, rfl⟩ : ∃ v, n.ca = some v ∧ l = "CA: " ++ v := by
      cases hcv : n.ca with
      | none => rw [hcv] at hl; cases hl
      | some v => rw [hcv] at hl; exact ⟨v, rfl, List.mem_singleton.mp hl⟩
    exact noCtl_append _ _ (by decide) (optAll_elim _ _ hca v hv)
  rcases List.mem_append.mp hl with hl | hl
  rotate_left
  · obtain ⟨p, hp, rfl⟩ := List.mem_map.mp hl
    exact noCtl_append _ _ (by decide)
      (noCtl_sig_toStr p.1 p.2 ((hsigs p hp).1.2))
  rcases List.mem_append.mp hl with hl | hl
  rotate_left
  · by_cases hlen : n.references.length > 0
    · rw [if_pos hlen] at hl
      rw [List.mem_singleton.mp hl]
      exact noCtl_refsLine n.references hrefs
    · rw [if_neg hlen] at hl
      cases hl
  rcases List.mem_append.mp hl with hl | hl
  rotate_left
  · obtain ⟨v, hv, rfl⟩ : ∃ v, n.deriver = some v ∧ l = "Deriver: " ++ v := by
      cases hcv : n.deriver with
      | none => rw [hcv] at hl; cases hl
      | some v => rw [hcv] at hl; exact ⟨v, rfl, List.mem_singleton.mp hl⟩
    exact noCtl_append _ _ (by decide) (optAll_elim _ _ hdrv v hv)
  rcases List.mem_append.mp hl with hl | hl
  rotate_left
  · obtain ⟨v, hv, rfl⟩ : ∃ v, n.compression = some v ∧ l = "Compression: " ++ v.asRef := by
      cases hcv : n.compression with
      | none => rw [hcv] at hl; cases hl
      | some v => rw [hcv] at hl; exact ⟨v, rfl, List.mem_singleton.mp hl⟩
    exact noCtl_append _ _ (by decide) (noCtl_compression v)
  rcases List.mem_append.mp hl with hl | hl
  rotate_left
  · obtain ⟨v, hv, rfl⟩ : ∃ v, n.url = some v ∧ l = "URL: " ++ v := by
      cases hcv : n.url with
      | none => rw [hcv] at hl; cases hl
      | some v => rw [hcv] at hl; exact ⟨v, rfl, List.mem_singleton.mp hl⟩
    exact noCtl_append _ _ (by decide) (optAll_elim _ _ hurl v hv)
  rcases List.mem_append.mp hl with hl | hl
  rotate_left
  · obtain ⟨v, hv, rfl⟩ : ∃ v, n.file_size = some v
        ∧ l = "FileSize: " ++ (⟨natToChars v⟩ : String) := by
      cases hcv : n.file_size with
      | none => rw [hcv] at hl; cases hl
      | some v => rw [hcv] at hl; exact ⟨v, rfl, List.mem_singleton.mp hl⟩
    exact noCtl_append _ _ (by decide) (noCtl_natToChars v)
  rcases List.mem_append.mp hl with hl | hl
  rotate_left
  · obtain ⟨v, hv, rfl⟩ : ∃ v, n.file_hash = some v ∧ l = "FileHash: " ++ v.toStr := by
      cases hcv : n.file_hash with
      | none => rw [hcv] at hl; cases hl
      | some v => rw [hcv] at hl; exact ⟨v, rfl, List.mem_singleton.mp hl⟩
    exact noCtl_append _ _ (by decide) (noCtl_nixhash v)
  rcases List.mem_cons.mp hl with rfl | hl
  · exact noCtl_append _ _ (by decide) hpath
  rcases List.mem_cons.mp hl with rfl | hl
  · exact noCtl_append _ _ (by decide) (noCtl_nixhash n.nar_hash)
  rcases List.mem_cons.mp hl with rfl | hl
  · exact noCtl_append _ _ (by decide) (noCtl_natToChars n.nar_size)
  cases hl

theorem toStr_lines (n : NarInfo) (hl : ∀ l ∈ n.outLines, noCtl l) :
    linesOf (n.toStr).data = (n.outLines).map String.data := by
  unfold NarInfo.toStr
  rw [data_string_join, List.map_map]
  have hmap : (n.outLines).map (String.data ∘ fun s => s ++ "\n")
      = ((n.outLines).map String.data).map (fun l => l ++ ['\n']) := by
    rw [List.map_map]
    apply List.map_congr_left
    intro s _
    show (s ++ "\n").data = s.data ++ ['\n']
    rw [String.data_append]
  rw [hmap]
  apply linesOf_of_lines
  intro l hml
  obtain ⟨s, hs, rfl⟩ := List.mem_map.mp hml
  obtain ⟨h1, h2⟩ := hl s hs
  refine ⟨h1, ?_⟩
  intro hlast
  exact h2 (List.mem_of_getLast?_eq_some hlast)

/-- C6. For every well-formed metadata value — required fields within
`u64` range, digest and signature bytes genuine bytes, no newline or
carriage return inside any textual field, references carrying the
store-root prefix with space-free suffixes in sorted order, signature key
names colon-free and unique — parsing the serialized text returns exactly
the original value (the model serializes the signature map in one fixed
order, so equality is on the nose, in particular up to signature
ordering). -/
theorem narinfo_roundtrip (n : NarInfo) (h : n.WF) :
    NarInfo.fromStr n.toStr = .ok n := by
  obtain ⟨hpath, hsz, hhash, hfh, hfs, hurl, hdrv, hca, hrefs, hsort, hsigs, hnd⟩ := h
  have hlines := toStr_lines n (outLines_ok n
    ⟨hpath, hsz, hhash, hfh, hfs, hurl, hdrv, hca, hrefs, hsort, hsigs, hnd⟩)
  unfold NarInfo.fromStr
  rw [hlines]
  unfold NarInfo.outLines
  simp only [List.map_append, List.map_cons, List.map_nil, List.cons_append,
    List.nil_append, List.append_assoc]
  rw [foldlM_parseLine_cons_ok _ _ _ _ (parseLine_storePath ParseAcc.init n.path)]
  rw [foldlM_parseLine_cons_ok _ _ _ _ (parseLine_narHash _ n.nar_hash hhash)]
  rw [foldlM_parseLine_cons_ok _ _ _ _ (parseLine_narSize _ n.nar_size hsz)]
  rw [foldlM_parseLine_step _ _ _ _
    (foldlM_seg_fileHash _ n.file_hash rfl (optAll_elim _ _ hfh))]
  rw [foldlM_parseLine_step _ _ _ _
    (foldlM_seg_fileSize _ n.file_size rfl (optAll_elim _ _ hfs))]
  rw [foldlM_parseLine_step _ _ _ _ (foldlM_seg_url _ n.url rfl)]
  rw [foldlM_parseLine_step _ _ _ _ (foldlM_seg_compression _ n.compression rfl)]
  rw [foldlM_parseLine_step _ _ _ _ (foldlM_seg_deriver _ n.deriver rfl)]
  rw [foldlM_parseLine_step _ _ _ _ (foldlM_seg_refs _ n.references rfl hrefs hsort)]
  rw [foldlM_parseLine_step _ _ _ _ (foldlM_seg_sigs n.signatures _
    (fun p hp => ⟨(hsigs p hp).1.1, (hsigs p hp).2⟩))]
  rw [foldlM_seg_ca _ n.ca rfl]
  have hsig : n.signatures.foldl (fun m p => insertAssoc p.1 p.2 m) [] = n.signatures := by
    have := foldl_insertAssoc_nodup n.signatures [] (by simpa using hnd)
    simpa using this
  simp [ParseAcc.init, hsig]

/-- C6 counterexample: a metadata value with every required field present
and no references at all — "valid" in the claim's sense — whose store path
contains a newline; serializing it and parsing the result fails with
`BadNarInfo` instead of returning the value. -/
theorem narinfo_roundtrip_counterexample :
    NarInfo.fromStr (NarInfo.toStr ⟨"a\nb", ⟨.Md5, []⟩, 0, none, none, none,
      none, none, none, [], []⟩) = .error .BadNarInfo := by
  decide

/-- A concrete well-formed metadata value exercising every field. -/
def nC6 : NarInfo :=
  ⟨"/nix/store/abc-pkg", ⟨.Sha256, [1, 2, 3, 4]⟩, 123, some ⟨.Md5, [9]⟩,
    some 77, some "nar/x.nar.xz", some .Xz, some "/nix/store/drv",
    some "fixed:stuff", ["/nix/store/a", "/nix/store/b"],
    [("cache.example-1", [7, 8, 9])]⟩

/-- Witness for C6 at a concrete fully populated value. -/
theorem narinfo_roundtrip_witness :
    NarInfo.fromStr (NarInfo.toStr nC6) = .ok nC6 := by
  apply narinfo_roundtrip nC6
  refine ⟨by decide, by decide, by decide, by decide, by decide, by decide,
    by decide, by decide, by decide, ?_, by decide, by decide⟩
  show List.Pairwise (· < ·) ["/nix/store/a", "/nix/store/b"]
  have hab : "/nix/store/a" < "/nix/store/b" := by
    rw [String.lt_iff_toList_lt]
    decide
  exact List.Pairwise.cons
    (fun y hy => by rcases List.mem_singleton.mp hy with rfl; exact hab)
    (List.pairwise_singleton _ _)

end Nyan
